import Mathlib

/-!
# Verification of the megastone core against its specification

Shallow embedding of the megastone binary-analysis toolkit (Python) in Lean 4.

The embedding follows the source files under `megastone/`:

* `megastone/db.py` — the registry (`DatabaseEntry.register` / `by_name`);
* `megastone/mem/segments.py` and `megastone/mem/memory.py` — segments, the
  splitting read/write walk, `MappableMemory.load` / `allocate`, and the
  chunked disassembly loop `Memory._disassemble_known_size`;
* `megastone/mem/buffer_memory.py` — the concrete buffer-backed memory;
* `megastone/debug/debugger.py` and `megastone/debug/emulator.py` — the
  debugger run loop, hook dispatch, `stop()`, and the stack view.

Python `bytes` values are embedded as `List Nat` (each element a byte value),
addresses and sizes as `Nat`.  Segment objects, which Python identifies by
object identity inside a memory's registration-order collection, are
identified here by their index in the registration-order list.  Helper
modules that the repository imports but whose files are absent
(`megastone/util.py`, `megastone/errors.py`, `megastone/mem/access.py`,
`megastone/mem/errors.py`, the architecture/endian helpers and the Unicorn
engine itself) are modelled from the specification; each such definition
says so in its doc comment.
-/

namespace Megastone

/-! ## Access types and access records -/

/-- Modelled from the spec: `mem/access.py` is absent from the sources.
Spec §3: "Access type — a bit-set over {READ, WRITE, EXECUTE}". -/
structure AccessType where
  r : Bool
  w : Bool
  x : Bool
deriving DecidableEq, Repr

/-- The `READ` access type (shorthand `R`). -/
def AccessType.R : AccessType := ⟨true, false, false⟩

/-- The `WRITE` access type (shorthand `W`). -/
def AccessType.W : AccessType := ⟨false, true, false⟩

/-- The `RWX` shorthand. -/
def AccessType.RWX : AccessType := ⟨true, true, true⟩

/-- Modelled from the spec: `mem/access.py` is absent from the sources.
Spec §3: "Access record — immutable tuple {type, address, size, value?};
`value` is present only for writes." -/
structure Access where
  type : AccessType
  address : Nat
  size : Nat
  value : Option (List Nat)
deriving DecidableEq, Repr

/-- Modelled from the spec: `mem/errors.py` is absent from the sources.
Spec §7: "`MemoryAccessError{access, cause}`"; the cause is the string
`'unmapped'` in the calls in `segments.py`. -/
structure MemoryAccessError where
  access : Access
  cause : String
deriving DecidableEq, Repr

/-! ## Registry (`megastone/db.py`) -/

/-- A registry entry: `DatabaseEntry.__init__` stores `name` and
`alt_names` (db.py lines 48-50). -/
structure DatabaseEntry where
  name : String
  altNames : List String
deriving DecidableEq, Repr

/-- `DatabaseEntry.register` (db.py lines 23-26): `cls._instances.append(instance)`.
The catalog is the list `_instances` in registration order. -/
def registerEntry (catalog : List DatabaseEntry) (instance_ : DatabaseEntry) :
    List DatabaseEntry :=
  catalog ++ [instance_]

/-- Python `str.lower()` on one ASCII character (the registry names are
ASCII identifiers). -/
def lowerChar (c : Char) : Char :=
  if 'A' ≤ c ∧ c ≤ 'Z' then Char.ofNat (c.toNat + 32) else c

/-- Python `str.lower()` (`name.lower()`, db.py line 31). -/
def lowerString (s : String) : String := ⟨s.data.map lowerChar⟩

/-- The match test of `DatabaseEntry.by_name` (db.py line 33):
`instance.name == name or name in instance.alt_names`, where `name` has
already been lowercased. -/
def entryMatches (e : DatabaseEntry) (loweredName : String) : Bool :=
  e.name = loweredName || e.altNames.contains loweredName

/-- `DatabaseEntry.by_name` (db.py lines 28-35): lowercase the query, return
the first registered instance whose canonical name equals it or whose
alt-name list contains it; `none` models raising `NotFoundError`. -/
def byName (catalog : List DatabaseEntry) (name : String) : Option DatabaseEntry :=
  catalog.find? (fun e => entryMatches e (lowerString name))

/-! ## Segments and buffer-backed memory
(`megastone/mem/segments.py`, `megastone/mem/buffer_memory.py`) -/

/-- A buffer-backed segment: `Segment` (segments.py lines 20-28) together
with the `_data` buffer of `BufferSegment` (buffer_memory.py lines 4-8).
The back-reference `mem` is dropped (design note §9: segments are looked up
through the memory). -/
structure BufSeg where
  name : String
  start : Nat
  size : Nat
  perms : AccessType
  data : List Nat
deriving DecidableEq, Repr

instance : Inhabited BufSeg := ⟨⟨"", 0, 0, ⟨false, false, false⟩, []⟩⟩

/-- `Segment.end` (segments.py line 31): `start + size`. -/
def BufSeg.end_ (s : BufSeg) : Nat := s.start + s.size

/-- `Segment.contains_address` (segments.py line 50): `start <= address < end`. -/
def BufSeg.containsAddress (s : BufSeg) (address : Nat) : Bool :=
  decide (s.start ≤ address ∧ address < s.end_)

/-- `Segment.overlaps` (segments.py line 43):
`self.start < other.end and other.start < self.end`. -/
def BufSeg.overlaps (s other : BufSeg) : Bool :=
  decide (s.start < other.end_ ∧ other.start < s.end_)

/-- `SegmentMemory._get_segment_by_address` (segments.py lines 134-139):
scan the segments in registration order and return the first one containing
the address.  Segments are identified by index in registration order. -/
def segIdxByAddress (segs : List BufSeg) (address : Nat) : Option Nat :=
  match segs with
  | [] => none
  | s :: rest =>
    if s.containsAddress address then some 0
    else (segIdxByAddress rest address).map (· + 1)

/-- The walk of `_get_data_offsets` (segments.py lines 278-294 and
buffer_memory.py lines 32-48): starting at `curr`, repeatedly look up the
segment containing the current address and yield
`(segment index, start_offset, end_offset)` where
`end_offset = min(end_address - seg.start, seg.size)`, advancing to
`seg.start + end_offset`; a gap yields `none` (the raised error).  The
Python `while` loop is given `fuel`; every iteration advances the current
address by at least one, so any `fuel ≥ end_ - curr` computes the walk. -/
def walkOffsets (segs : List BufSeg) : Nat → Nat → Nat → Option (List (Nat × Nat × Nat))
  | 0, curr, endAddr => if curr < endAddr then none else some []
  | fuel + 1, curr, endAddr =>
    if curr < endAddr then
      match segIdxByAddress segs curr with
      | none => none
      | some i =>
        match segs[i]? with
        | none => none
        | some s =>
          let startOffset := curr - s.start
          let endOffset := min (endAddr - s.start) s.size
          match walkOffsets segs fuel (s.start + endOffset) endAddr with
          | none => none
          | some rest => some ((i, startOffset, endOffset) :: rest)
    else some []

/-- Python list slice `l[st:en]` for `st ≤ en`. -/
def listSlice (l : List Nat) (st en : Nat) : List Nat :=
  (l.drop st).take (en - st)

/-- Python `bytearray` slice assignment `d[st : st+len(c)] = c`
(used by buffer_memory.py line 26 where the slice length always equals
the chunk length). -/
def setSlice (d : List Nat) (st : Nat) (c : List Nat) : List Nat :=
  d.take st ++ c ++ d.drop (st + c.length)

/-- One step of `BufferMemory.write_data` (buffer_memory.py line 26):
`seg._data[start:end] = data[offset : offset+chunk_size]`, applied to the
segment at index `i`. -/
def writeSegAt (segs : List BufSeg) (i st : Nat) (chunk : List Nat) : List BufSeg :=
  match segs[i]? with
  | none => segs
  | some s => segs.set i { s with data := setSlice s.data st chunk }

/-- The loop of `BufferMemory.write_data` (buffer_memory.py lines 23-27):
walk the plan, writing `data[offset : offset+chunk_size]` into each planned
segment region and advancing `offset` by the chunk size. -/
def applyPlan (segs : List BufSeg) :
    List (Nat × Nat × Nat) → List Nat → Nat → List BufSeg
  | [], _, _ => segs
  | (i, st, en) :: rest, data, offset =>
    applyPlan (writeSegAt segs i st (listSlice data offset (offset + (en - st))))
      rest data (offset + (en - st))

/-- `BufferMemory.write_data` (buffer_memory.py lines 22-27): materialize the
whole walk first (`list(...)`, "to detect any errors before starting to
write"), then apply the per-segment writes.  `none` models the raised
error, in which case no segment was modified. -/
def writeData (segs : List BufSeg) (address : Nat) (data : List Nat) :
    Option (List BufSeg) :=
  (walkOffsets segs data.length address (address + data.length)).map
    (fun plan => applyPlan segs plan data 0)

/-- The joined bytes of `BufferMemory.read_data` (buffer_memory.py line 30):
`b''.join(seg._data[start:end] for seg, start, end in plan)`. -/
def readPlanData (segs : List BufSeg) (plan : List (Nat × Nat × Nat)) : List Nat :=
  (plan.map (fun p => listSlice ((segs[p.1]?).getD default).data p.2.1 p.2.2)).flatten

/-- `BufferMemory.read_data` (buffer_memory.py lines 29-30):
`b''.join(seg._data[start:end] for seg, start, end in self._get_data_offsets(...))`. -/
def readData (segs : List BufSeg) (address size : Nat) : Option (List Nat) :=
  (walkOffsets segs size address (address + size)).map (readPlanData segs)

/-- `SplittingSegmentMemory._write` (segments.py lines 271-276), instantiated
with the buffer-backed `_write_segment`: plan the entire walk eagerly
(`list(offsets)`, raising `MemoryAccessError(Access(W, address, len(data),
data), 'unmapped')` on a gap — segments.py line 288 — before any segment is
mutated), then write each planned chunk.  The result pairs the memory after
the call with the raised error, if any: on an error the memory is returned
unchanged because the plan is materialized before the first write. -/
def splitWrite (segs : List BufSeg) (address : Nat) (data : List Nat) :
    List BufSeg × Option MemoryAccessError :=
  match walkOffsets segs data.length address (address + data.length) with
  | none =>
    (segs, some ⟨⟨AccessType.W, address, data.length, some data⟩, "unmapped"⟩)
  | some plan => (applyPlan segs plan data 0, none)

/-! ## Mapping, loading, allocating
(`megastone/mem/segments.py` lines 197-244, `megastone/mem/buffer_memory.py`) -/

/-- Modelled from the spec: `megastone/errors.py` is absent from the sources.
Spec §7 groups generic failures under a base error carrying a message. -/
structure MegastoneError where
  message : String
deriving DecidableEq, Repr

/-- `DictSegmentMemory._add_segment` (segments.py lines 197-207): reject a
duplicate name, then reject overlap with any existing segment, then insert
(dict insertion preserves registration order, hence append). -/
def addSegment (segs : List BufSeg) (seg : BufSeg) :
    Except MegastoneError (List BufSeg) :=
  if segs.any (fun s => s.name = seg.name) then
    .error ⟨"Segment with this name already exists"⟩
  else if segs.any (fun s => s.overlaps seg) then
    .error ⟨"Segment overlap"⟩
  else
    .ok (segs ++ [seg])

/-- `BufferMemory.map` (buffer_memory.py lines 19-20):
`self._add_segment(BufferSegment(name, start, size, perms, self))`, where
`BufferSegment.__init__` creates `_data = bytearray(size)` (all zeroes). -/
def bmMap (segs : List BufSeg) (name : String) (start size : Nat)
    (perms : AccessType) : Except MegastoneError (List BufSeg) :=
  addSegment segs ⟨name, start, size, perms, List.replicate size 0⟩

/-- The failure modes of `MappableMemory.load`: an error raised by `map`
(no segment was added), or an error raised by the write step (the freshly
mapped segment remains mapped, since the source has no unwind). -/
inductive LoadError where
  | mapError (e : MegastoneError)
  | writeError
deriving DecidableEq, Repr

/-- `MappableMemory.load` (segments.py lines 222-226):
`seg = self.map(name, address, len(data), perms); seg.write(data)`, where
`seg.write` writes `data` at `seg.start`.  The result pairs the memory
after the call with the raised error, if any: a `map` error leaves the
memory unchanged, while a write error would leave the new segment mapped
(the source has no unwind). -/
def bmLoad (segs : List BufSeg) (name : String) (address : Nat)
    (data : List Nat) (perms : AccessType) : List BufSeg × Option LoadError :=
  match bmMap segs name address data.length perms with
  | .error e => (segs, some (.mapError e))
  | .ok m1 =>
    match writeData m1 address data with
    | none => (m1, some .writeError)
    | some m2 => (m2, none)

/-- `MIN_ALLOC_ADDRESS` (segments.py line 16). -/
def MIN_ALLOC_ADDRESS : Nat := 0x1000

/-- `ALLOC_ROUND_SIZE` (segments.py line 17). -/
def ALLOC_ROUND_SIZE : Nat := 0x1000

/-- Modelled from the spec: `megastone/util.py` is absent from the sources.
Spec §4.4: the allocation address is "rounded up to `ALLOC_ROUND_SIZE`",
i.e. `round_up(n, m)` is the least multiple of `m` that is `≥ n`. -/
def round_up (n m : Nat) : Nat := ((n + m - 1) / m) * m

/-- The address picked by `MappableMemory.allocate` (segments.py lines
242-243): `max([*(seg.end for seg in self.segments), MIN_ALLOC_ADDRESS])`
rounded up to `ALLOC_ROUND_SIZE`. -/
def allocAddress (segs : List BufSeg) : Nat :=
  round_up ((segs.map BufSeg.end_).foldl max MIN_ALLOC_ADDRESS) ALLOC_ROUND_SIZE

/-- `MappableMemory.allocate` (segments.py lines 240-244), with
`BufferMemory.map` as the `map` implementation. -/
def bmAllocate (segs : List BufSeg) (name : String) (size : Nat)
    (perms : AccessType) : Except MegastoneError (List BufSeg) :=
  bmMap segs name (allocAddress segs) size perms

/-! ## Endianness and integer encoding -/

/-- Modelled from the spec: the architecture/endian helpers are absent from
the sources.  Spec §3: "Endianness — enumeration {LITTLE, BIG} with
encode/decode operations for signed and unsigned integers of a given
width." -/
inductive Endian where
  | little
  | big
deriving DecidableEq, Repr

/-- Little-endian byte encoding of an unsigned integer into `size` bytes
(least significant byte first). -/
def encodeIntLE : Nat → Nat → List Nat
  | 0, _ => []
  | size + 1, v => (v % 256) :: encodeIntLE size (v / 256)

/-- Little-endian byte decoding of an unsigned integer. -/
def decodeIntLE : List Nat → Nat
  | [] => 0
  | b :: rest => b + 256 * decodeIntLE rest

/-- Modelled from the spec: `Endian.encode_int` for unsigned integers; the
big-endian encoding is the byte-reversed little-endian one. -/
def Endian.encodeInt : Endian → Nat → Nat → List Nat
  | .little, v, size => encodeIntLE size v
  | .big, v, size => (encodeIntLE size v).reverse

/-- Modelled from the spec: `Endian.decode_int` for unsigned integers. -/
def Endian.decodeInt : Endian → List Nat → Nat
  | .little, data => decodeIntLE data
  | .big, data => decodeIntLE data.reverse

/-! ## Stack view (`megastone/debug/debugger.py` lines 217-250) -/

/-- The part of the debugger state that `StackView` touches: the memory
(buffer-backed, as in `BufferMemory`) and the stack-pointer register. -/
structure StackState where
  mem : List BufSeg
  sp : Nat
deriving DecidableEq, Repr

/-- `StackView.push` (debugger.py lines 241-244): `sp -= word_size` then
`self[0] = value`, i.e. `write_word(sp + 0*word_size, value)`
(`StackView.get_address`, line 229), which encodes the value with the
architecture endian into `word_size` bytes (`Memory.write_int`,
memory.py lines 62-65) and writes them; `none` models a propagated
`MemoryAccessError`. -/
def stackPush (endian : Endian) (wordSize : Nat) (s : StackState) (value : Nat) :
    Option StackState :=
  let sp' := s.sp - wordSize
  (writeData s.mem sp' (endian.encodeInt value wordSize)).map (fun m => ⟨m, sp'⟩)

/-- `StackView.pop` (debugger.py lines 246-250): `value = self[0]`, i.e.
`read_word(sp)` (`Memory.read_int`, memory.py lines 57-60), then
`sp += word_size` and return the value. -/
def stackPop (endian : Endian) (wordSize : Nat) (s : StackState) :
    Option (Nat × StackState) :=
  (readData s.mem s.sp wordSize).map
    (fun bytes => (endian.decodeInt bytes, ⟨s.mem, s.sp + wordSize⟩))

/-! ## Debugger run loop, hooks and stop (`megastone/debug/debugger.py`,
`megastone/debug/emulator.py`) -/

/-- The observable behavior of a hook callback.  Callbacks are arbitrary
user code; the run-loop claims depend only on whether a callback invokes
`Debugger.stop()`, so callbacks are modelled by that choice. -/
inductive HookAction where
  | stop
  | nop
deriving DecidableEq, Repr

/-- A code hook (`Hook` of debug/hooks.py, absent from the sources,
modelled from spec §3): an address — `none` models the `ALL_ADDRESSES`
sentinel used by `trace` — and the callback. -/
structure Hook where
  id : Nat
  addr : Option Nat
  action : HookAction
deriving DecidableEq, Repr

/-- The debugger/emulator state visible to the run-loop claims:
`pc` and a representative general-purpose register `reg0`, plus
`Debugger.curr_hook`, `Debugger._stop_hook`, the engine's stopped flag set
by `uc.emu_stop()`, and a ghost log of the hook callbacks invoked (in
invocation order). -/
structure DbgState where
  pc : Nat
  reg0 : Nat
  currHook : Option Hook
  stopHookReg : Option Hook
  engineStopped : Bool
  dispatched : List Hook
deriving DecidableEq, Repr

/-- `Debugger._handle_hook` (debugger.py lines 157-165): set `curr_hook`,
invoke the callback, clear `curr_hook` on all exit paths.  A callback that
calls `stop()` triggers `Emulator.stop` (emulator.py lines 151-153):
`super().stop()` sets `_stop_hook = self.curr_hook` (debugger.py line 176)
and `self._uc.emu_stop()` sets the engine's stopped flag. -/
def handleHook (h : Hook) (s : DbgState) : DbgState :=
  let s1 := { s with currHook := some h, dispatched := s.dispatched ++ [h] }
  let s2 :=
    match h.action with
    | .stop => { s1 with stopHookReg := s1.currHook, engineStopped := true }
    | .nop => s1
  { s2 with currHook := none }

/-- Whether a code hook fires at `pc`: a point hook is registered with the
engine over the range `[addr, addr]` (emulator.py line 141) and an
`ALL_ADDRESSES` hook over the everything-range (emulator.py line 158). -/
def hookMatches (h : Hook) (pc : Nat) : Bool :=
  match h.addr with
  | none => true
  | some a => a = pc

/-- Modelled from the spec: the engine invokes the matching code hooks
before an instruction; once a hook has called `stop()` the engine halts
after that hook completes (spec §4.5 hook dispatch, §4.6 `stop()`), so the
remaining hooks are not invoked. -/
def dispatchHooks (hooks : List Hook) (pc : Nat) (s : DbgState) : DbgState :=
  match hooks with
  | [] => s
  | h :: rest =>
    if s.engineStopped then s
    else dispatchHooks rest pc (if hookMatches h pc then handleHook h s else s)

/-- Modelled from the spec: the external CPU engine's `emu_start`
(spec §6 emulator capability: "start with `(begin_pointer, until, count)`").
`step pc reg0` is the guest program: the register effect of the instruction
at `pc`, or `none` when there is nothing to execute.  The engine invokes
matching code hooks before each instruction, halts after a hook calls
`stop()`, and counts executed instructions: it halts when the executed
count reaches `count`, with `count = 0` meaning no limit — the engine
convention that `Emulator._run` relies on when it translates `count=None`
("unlimited", per the `Debugger.run` docstring) into `0`.  `fuel` bounds
the loop; the returned `Nat` is the number of instructions executed. -/
def engineRun (step : Nat → Nat → Option (Nat × Nat)) (hooks : List Hook) :
    Nat → Nat → Nat → DbgState → DbgState × Nat
  | 0, _, executed, s => (s, executed)
  | fuel + 1, count, executed, s =>
    let s1 := dispatchHooks hooks s.pc s
    if s1.engineStopped then (s1, executed)
    else
      match step s1.pc s1.reg0 with
      | none => (s1, executed)
      | some pr =>
        let s2 := { s1 with pc := pr.1, reg0 := pr.2 }
        if count = executed + 1 then (s2, executed + 1)
        else engineRun step hooks fuel count (executed + 1) s2

/-- `Emulator._run` (emulator.py lines 126-137): `if count is None:
count = 0`, then `self._uc.emu_start(start, -1, count=count)`. -/
def emulatorRunRaw (step : Nat → Nat → Option (Nat × Nat)) (hooks : List Hook)
    (fuel : Nat) (count : Option Nat) (s : DbgState) : DbgState × Nat :=
  let ucCount := match count with | none => 0 | some c => c
  engineRun step hooks fuel ucCount 0 s

/-- `StopType` (debugger.py lines 18-20). -/
inductive StopType where
  | count
  | hook
deriving DecidableEq, Repr

/-- `StopReason` (debugger.py lines 23-26): the stop type, plus the hook if
stopped by a hook. -/
structure StopReason where
  type : StopType
  hook : Option Hook
deriving DecidableEq, Repr

/-- `Debugger.run` (debugger.py lines 90-109): clear `_stop_hook`, drive the
engine, and return `StopReason(HOOK, self._stop_hook)` if a hook stopped
execution, else `StopReason(COUNT)`. -/
def debuggerRun (step : Nat → Nat → Option (Nat × Nat)) (hooks : List Hook)
    (fuel : Nat) (count : Option Nat) (s : DbgState) :
    StopReason × DbgState × Nat :=
  let s0 := { s with stopHookReg := none }
  let r := emulatorRunRaw step hooks fuel count s0
  match r.1.stopHookReg with
  | some h => (⟨.hook, some h⟩, r.1, r.2)
  | none => (⟨.count, none⟩, r.1, r.2)

/-! ## Chunked disassembly (`megastone/mem/memory.py` lines 149-187, 423-428) -/

/-- `Instruction` restricted to the fields the disassembly loop uses:
its address and its size in bytes. -/
structure Insn where
  address : Nat
  size : Nat
deriving DecidableEq, Repr

/-- `DISASSEMBLY_CHUNK_SIZE` (memory.py line 18). -/
def DISASSEMBLY_CHUNK_SIZE : Nat := 0x400

/-- The loop guard of `Memory._disassemble_known_size` (memory.py line
168): `count < insn_limit and offset <= max_size - min_insn_size`, where
`insn_limit` is `float('inf')` when `max_num` is `None`; rendered in the
overflow-safe form `offset + min_insn ≤ max_size` (Python evaluates the
subtraction over unbounded signed integers). -/
def disasmGuard (maxNum : Option Nat) (minInsn maxSize offset count : Nat) :
    Bool :=
  (match maxNum with | none => true | some m => decide (count < m)) &&
    decide (offset + minInsn ≤ maxSize)

/-- The chunk size of `Memory._disassemble_known_size` (memory.py line
173): `min(size_remaining, insns_remaining * max_insn_size,
DISASSEMBLY_CHUNK_SIZE)`, with the middle term infinite when `max_num` is
`None`. -/
def disasmReadSize (maxNum : Option Nat) (maxInsn sizeRemaining count : Nat) :
    Nat :=
  match maxNum with
  | none => min sizeRemaining DISASSEMBLY_CHUNK_SIZE
  | some m => min sizeRemaining (min ((m - count) * maxInsn) DISASSEMBLY_CHUNK_SIZE)

/-- The per-chunk maximum instruction count of
`Memory._disassemble_known_size` (memory.py line 177): `None` when
`max_num` is `None`, otherwise the number of instructions remaining. -/
def disasmCurrMax (maxNum : Option Nat) (count : Nat) : Option Nat :=
  match maxNum with
  | none => none
  | some m => some (m - count)

/-- `Memory._disassemble_known_size` (memory.py lines 163-187).
`dis chunk address count` abstracts `isa.disassemble` (the external
disassembler backend); `readF a n` abstracts `self.read(a, n)`.  Returns
the emitted instructions and the list of `(address, size)` reads issued.
The break test is `read_size == size_remaining or read_size - total_size
>= max_insn_size` (memory.py line 183), in overflow-safe form.  The
`while` loop is given `fuel`; the invariants proven below hold for every
fuel. -/
def disasmKnownSize (dis : List Nat → Nat → Option Nat → List Insn)
    (minInsn maxInsn : Nat) (readF : Nat → Nat → List Nat)
    (address maxSize : Nat) (maxNum : Option Nat) :
    Nat → Nat → Nat → List Insn × List (Nat × Nat)
  | 0, _, _ => ([], [])
  | fuel + 1, offset, count =>
    if disasmGuard maxNum minInsn maxSize offset count then
      let readSize := disasmReadSize maxNum maxInsn (maxSize - offset) count
      let insns := dis (readF (address + offset) readSize) (address + offset)
        (disasmCurrMax maxNum count)
      let total := (insns.map Insn.size).sum
      if readSize = maxSize - offset ∨ maxInsn + total ≤ readSize then
        (insns, [(address + offset, readSize)])
      else
        let rest := disasmKnownSize dis minInsn maxInsn readF address maxSize maxNum
          fuel (offset + total) (count + insns.length)
        (insns ++ rest.1, (address + offset, readSize) :: rest.2)
    else ([], [])

/-- `SegmentMemory._get_max_read_size` (memory.py lines 423-428 /
segments.py lines 141-146): the distance from the address to the end of
the segment containing it, or `none` if no segment contains it.
`Memory.disassemble` (memory.py lines 149-161) enters
`_disassemble_known_size` with this value exactly when it is not `none`. -/
def getMaxReadSize (segs : List BufSeg) (address : Nat) : Option Nat :=
  (segIdxByAddress segs address).map (fun i => ((segs[i]?).getD default).end_ - address)

/-! ## Concrete data used by the witnesses -/

/-- Two adjacent RWX segments, `"a"` at `[0x1000, 0x1010)` and `"b"` at
`[0x1010, 0x1020)` (spec §8 concrete scenario 3). -/
def demoSegs : List BufSeg :=
  [⟨"a", 0x1000, 0x10, AccessType.RWX, List.replicate 0x10 0⟩,
   ⟨"b", 0x1010, 0x10, AccessType.RWX, List.replicate 0x10 0⟩]

/-- A three-instruction demo guest program: at `0x1000`, `0x1004` and
`0x1008` an instruction advances `pc` by 4 and increments `reg0`;
elsewhere there is nothing to execute. -/
def demoStep : Nat → Nat → Option (Nat × Nat) := fun pc r0 =>
  if pc = 0x1000 ∨ pc = 0x1004 ∨ pc = 0x1008 then some (pc + 4, r0 + 1) else none

/-- The initial debugger state for the demo program. -/
def demoInit : DbgState := ⟨0x1000, 0, none, none, false, []⟩

/-- A breakpoint hook at `0x1004`: a code hook whose callback calls
`stop()` (`Debugger.add_breakpoint`, debugger.py lines 147-149). -/
def demoBp : Hook := ⟨1, some 0x1004, .stop⟩

/-- The geometry of a segment list: name, start and size of every segment,
in order.  Writes change only segment contents, never the geometry. -/
def geom (segs : List BufSeg) : List (String × Nat × Nat) :=
  segs.map (fun s => (s.name, s.start, s.size))

/-- The segment-overlap class invariant maintained by
`DictSegmentMemory._add_segment` (segments.py lines 202-204): no two
segments of one memory overlap. -/
def nonOverlapping (segs : List BufSeg) : Prop :=
  List.Pairwise (fun s t => s.overlaps t = false) segs

instance (segs : List BufSeg) : Decidable (nonOverlapping segs) :=
  inferInstanceAs (Decidable (List.Pairwise _ segs))

/-- Whether a hook's callback calls `stop()`. -/
def isStopHook (h : Hook) : Bool := h.action == HookAction.stop

/-- A demo fixed-size disassembler backend: decodes one 4-byte instruction
from the front of the chunk when at least 4 bytes are available. -/
def demoDis (chunk : List Nat) (address : Nat) (_ : Option Nat) : List Insn :=
  if 4 ≤ chunk.length then [⟨address, 4⟩] else []

/-- A demo memory-read primitive: reads return the requested number of
zero bytes. -/
def demoReadF (_ n : Nat) : List Nat := List.replicate n 0

/-! ## Basic lemmas about slices and segment lookup -/

theorem listSlice_length {l : List Nat} {st en : Nat} (hen : en ≤ l.length)
    (hst : st ≤ en) : (listSlice l st en).length = en - st := by
  simp only [listSlice, List.length_take, List.length_drop]
  omega

theorem setSlice_length {d c : List Nat} {st : Nat} (h : st + c.length ≤ d.length) :
    (setSlice d st c).length = d.length := by
  simp only [setSlice, List.length_append, List.length_take, List.length_drop]
  omega

theorem listSlice_setSlice {d c : List Nat} {st : Nat} (h : st + c.length ≤ d.length) :
    listSlice (setSlice d st c) st (st + c.length) = c := by
  have hst : (d.take st).length = st := by
    simp only [List.length_take]
    omega
  have h1 : setSlice d st c = d.take st ++ (c ++ d.drop (st + c.length)) := by
    simp [setSlice, List.append_assoc]
  have h2 : (d.take st ++ (c ++ d.drop (st + c.length))).drop st
      = c ++ d.drop (st + c.length) := by
    have h3 := List.drop_left (d.take st) (c ++ d.drop (st + c.length))
    rwa [hst] at h3
  simp only [listSlice, h1, h2, Nat.add_sub_cancel_left]
  exact List.take_left c (d.drop (st + c.length))

theorem listSlice_zero (b : List Nat) (k : Nat) : listSlice b 0 k = b.take k := by
  simp [listSlice]

theorem listSlice_drop (b : List Nat) (c o k : Nat) :
    listSlice (b.drop c) o k = listSlice b (c + o) (c + k) := by
  simp only [listSlice, List.drop_drop]
  have h1 : c + k - (c + o) = k - o := by omega
  rw [h1]

theorem segIdxByAddress_some {segs : List BufSeg} {a i : Nat}
    (h : segIdxByAddress segs a = some i) :
    ∃ s, segs[i]? = some s ∧ s.containsAddress a = true := by
  induction segs generalizing i with
  | nil => simp [segIdxByAddress] at h
  | cons s rest ih =>
    simp only [segIdxByAddress] at h
    split at h
    next hc =>
      injection h with h
      subst h
      exact ⟨s, by simp, by simpa using hc⟩
    next hc =>
      simp only [Option.map_eq_some'] at h
      obtain ⟨j, hj, rfl⟩ := h
      obtain ⟨t, ht, hct⟩ := ih hj
      exact ⟨t, by simpa using ht, hct⟩

theorem segIdxByAddress_isSome_of_mem {segs : List BufSeg} {a j : Nat} {s : BufSeg}
    (hj : segs[j]? = some s) (hc : s.containsAddress a = true) :
    (segIdxByAddress segs a).isSome = true := by
  induction segs generalizing j with
  | nil => simp at hj
  | cons t rest ih =>
    simp only [segIdxByAddress]
    split
    · simp
    · cases j with
      | zero =>
        simp only [List.getElem?_cons_zero, Option.some.injEq] at hj
        subst hj
        simp_all
      | succ j =>
        simp only [List.getElem?_cons_succ] at hj
        simpa using ih hj

/-! ## Lemmas about the segment walk -/

theorem walkOffsets_ge {segs : List BufSeg} {fuel curr endAddr : Nat}
    (h : endAddr ≤ curr) : walkOffsets segs fuel curr endAddr = some [] := by
  cases fuel <;> simp [walkOffsets, Nat.not_lt.mpr h]

theorem walkOffsets_succ_eq {segs : List BufSeg} {fuel curr endAddr i : Nat}
    {s : BufSeg} (hlt : curr < endAddr)
    (hidx : segIdxByAddress segs curr = some i) (hget : segs[i]? = some s) :
    walkOffsets segs (fuel + 1) curr endAddr =
      match walkOffsets segs fuel (s.start + min (endAddr - s.start) s.size) endAddr with
      | none => none
      | some rest =>
        some ((i, curr - s.start, min (endAddr - s.start) s.size) :: rest) := by
  simp only [walkOffsets, if_pos hlt, hidx, hget]

theorem walkOffsets_succ_none {segs : List BufSeg} {fuel curr endAddr : Nat}
    (hlt : curr < endAddr) (hidx : segIdxByAddress segs curr = none) :
    walkOffsets segs (fuel + 1) curr endAddr = none := by
  simp only [walkOffsets, if_pos hlt, hidx]

theorem walkOffsets_covers {segs : List BufSeg} :
    ∀ {fuel curr endAddr : Nat} {plan : List (Nat × Nat × Nat)},
      walkOffsets segs fuel curr endAddr = some plan →
      ∀ a, curr ≤ a → a < endAddr → (segIdxByAddress segs a).isSome = true := by
  intro fuel
  induction fuel with
  | zero =>
    intro curr endAddr plan h a ha1 ha2
    simp only [walkOffsets] at h
    split at h
    · exact absurd h (by simp)
    · omega
  | succ fuel ih =>
    intro curr endAddr plan h a ha1 ha2
    by_cases hlt : curr < endAddr
    · cases hidx : segIdxByAddress segs curr with
      | none => rw [walkOffsets_succ_none hlt hidx] at h; exact absurd h (by simp)
      | some i =>
        obtain ⟨s, hget, hcont⟩ := segIdxByAddress_some hidx
        rw [walkOffsets_succ_eq hlt hidx hget] at h
        cases hw : walkOffsets segs fuel (s.start + min (endAddr - s.start) s.size)
            endAddr with
        | none => rw [hw] at h; exact absurd h (by simp)
        | some rest =>
          by_cases ha : a < s.start + min (endAddr - s.start) s.size
          · refine segIdxByAddress_isSome_of_mem hget ?_
            simp only [BufSeg.containsAddress, BufSeg.end_, decide_eq_true_eq] at hcont ⊢
            omega
          · exact ih hw a (by omega) ha2
    · omega

theorem walkOffsets_isSome_of_covered {segs : List BufSeg} :
    ∀ {fuel curr endAddr : Nat},
      endAddr - curr ≤ fuel →
      (∀ a, curr ≤ a → a < endAddr → (segIdxByAddress segs a).isSome = true) →
      (walkOffsets segs fuel curr endAddr).isSome = true := by
  intro fuel
  induction fuel with
  | zero =>
    intro curr endAddr hf _
    rw [walkOffsets_ge (by omega)]
    simp
  | succ fuel ih =>
    intro curr endAddr hf hcov
    by_cases hlt : curr < endAddr
    · have hs := hcov curr (Nat.le_refl _) hlt
      cases hidx : segIdxByAddress segs curr with
      | none => rw [hidx] at hs; simp at hs
      | some i =>
        obtain ⟨s, hget, hcont⟩ := segIdxByAddress_some hidx
        rw [walkOffsets_succ_eq hlt hidx hget]
        simp only [BufSeg.containsAddress, BufSeg.end_, decide_eq_true_eq] at hcont
        have hrest := @ih (s.start + min (endAddr - s.start) s.size) endAddr
          (by omega) (fun a ha1 ha2 => hcov a (by omega) ha2)
        cases hw : walkOffsets segs fuel (s.start + min (endAddr - s.start) s.size)
            endAddr with
        | none => rw [hw] at hrest; simp at hrest
        | some rest => simp
    · rw [walkOffsets_ge (by omega)]
      simp

theorem walkOffsets_sum {segs : List BufSeg} :
    ∀ {fuel curr endAddr : Nat} {plan : List (Nat × Nat × Nat)},
      walkOffsets segs fuel curr endAddr = some plan →
      (plan.map (fun e => e.2.2 - e.2.1)).sum = endAddr - curr := by
  intro fuel
  induction fuel with
  | zero =>
    intro curr endAddr plan h
    simp only [walkOffsets] at h
    split at h
    · exact absurd h (by simp)
    next hge =>
      injection h with h
      subst h
      simp
      omega
  | succ fuel ih =>
    intro curr endAddr plan h
    by_cases hlt : curr < endAddr
    · cases hidx : segIdxByAddress segs curr with
      | none => rw [walkOffsets_succ_none hlt hidx] at h; exact absurd h (by simp)
      | some i =>
        obtain ⟨s, hget, hcont⟩ := segIdxByAddress_some hidx
        rw [walkOffsets_succ_eq hlt hidx hget] at h
        cases hw : walkOffsets segs fuel (s.start + min (endAddr - s.start) s.size)
            endAddr with
        | none => rw [hw] at h; exact absurd h (by simp)
        | some rest =>
          rw [hw] at h
          injection h with h
          subst h
          have hrest := ih hw
          simp only [BufSeg.containsAddress, BufSeg.end_, decide_eq_true_eq] at hcont
          simp only [List.map_cons, List.sum_cons, hrest]
          omega
    · rw [walkOffsets_ge (by omega)] at h
      injection h with h
      subst h
      simp
      omega

theorem walkOffsets_entries {segs : List BufSeg} :
    ∀ {fuel curr endAddr : Nat} {plan : List (Nat × Nat × Nat)},
      walkOffsets segs fuel curr endAddr = some plan →
      ∀ e ∈ plan, ∃ s, segs[e.1]? = some s ∧
        curr ≤ s.start + e.2.1 ∧ e.2.1 < s.size := by
  intro fuel
  induction fuel with
  | zero =>
    intro curr endAddr plan h e he
    simp only [walkOffsets] at h
    split at h
    · exact absurd h (by simp)
    · injection h with h
      subst h
      simp at he
  | succ fuel ih =>
    intro curr endAddr plan h e he
    by_cases hlt : curr < endAddr
    · cases hidx : segIdxByAddress segs curr with
      | none => rw [walkOffsets_succ_none hlt hidx] at h; exact absurd h (by simp)
      | some i =>
        obtain ⟨s, hget, hcont⟩ := segIdxByAddress_some hidx
        rw [walkOffsets_succ_eq hlt hidx hget] at h
        cases hw : walkOffsets segs fuel (s.start + min (endAddr - s.start) s.size)
            endAddr with
        | none => rw [hw] at h; exact absurd h (by simp)
        | some rest =>
          rw [hw] at h
          injection h with h
          subst h
          simp only [BufSeg.containsAddress, BufSeg.end_, decide_eq_true_eq] at hcont
          rcases List.mem_cons.mp he with rfl | hmem
          · refine ⟨s, hget, ?_, ?_⟩
            · show curr ≤ s.start + (curr - s.start)
              omega
            · show curr - s.start < s.size
              omega
          · obtain ⟨t, hgt, h1, h2⟩ := ih hw e hmem
            exact ⟨t, hgt, by omega, h2⟩
    · rw [walkOffsets_ge (by omega)] at h
      injection h with h
      subst h
      simp at he

/-! ## Geometry invariance and plan application -/

theorem segIdxByAddress_geom {segs segs' : List BufSeg}
    (h : geom segs = geom segs') (a : Nat) :
    segIdxByAddress segs a = segIdxByAddress segs' a := by
  induction segs generalizing segs' with
  | nil =>
    cases segs' with
    | nil => rfl
    | cons t rest' => simp [geom] at h
  | cons s rest ih =>
    cases segs' with
    | nil => simp [geom] at h
    | cons t rest' =>
      simp only [geom, List.map_cons, List.cons.injEq, Prod.mk.injEq] at h
      obtain ⟨⟨hn, hs1, hs2⟩, htl⟩ := h
      have hc : s.containsAddress a = t.containsAddress a := by
        simp only [BufSeg.containsAddress, BufSeg.end_, hs1, hs2]
      have htl' : geom rest = geom rest' := by simpa [geom] using htl
      simp only [segIdxByAddress, hc, ih htl']

theorem getElem?_geom {segs segs' : List BufSeg}
    (h : geom segs = geom segs') (i : Nat) :
    (segs[i]?).map (fun s => (s.name, s.start, s.size))
      = (segs'[i]?).map (fun s => (s.name, s.start, s.size)) := by
  have h1 : (geom segs)[i]? = (geom segs')[i]? := by rw [h]
  simpa [geom] using h1

theorem walkOffsets_geom {segs segs' : List BufSeg}
    (h : geom segs = geom segs') :
    ∀ fuel curr endAddr,
      walkOffsets segs fuel curr endAddr = walkOffsets segs' fuel curr endAddr := by
  intro fuel
  induction fuel with
  | zero => intro curr endAddr; rfl
  | succ fuel ih =>
    intro curr endAddr
    by_cases hlt : curr < endAddr
    · cases hidx : segIdxByAddress segs curr with
      | none =>
        rw [walkOffsets_succ_none hlt hidx,
          walkOffsets_succ_none hlt (segIdxByAddress_geom h curr ▸ hidx)]
      | some i =>
        obtain ⟨s, hget, _⟩ := segIdxByAddress_some hidx
        have hidx' : segIdxByAddress segs' curr = some i :=
          segIdxByAddress_geom h curr ▸ hidx
        have hmap := getElem?_geom h i
        rw [hget] at hmap
        cases hget' : segs'[i]? with
        | none => rw [hget'] at hmap; simp at hmap
        | some t =>
          rw [hget'] at hmap
          simp only [Option.map_some', Option.some.injEq, Prod.mk.injEq] at hmap
          obtain ⟨-, h1, h2⟩ := hmap
          rw [walkOffsets_succ_eq hlt hidx hget,
            walkOffsets_succ_eq hlt hidx' hget', h1, h2, ih]
    · rw [walkOffsets_ge (by omega), walkOffsets_ge (by omega)]

theorem writeSegAt_geom (segs : List BufSeg) (i st : Nat) (c : List Nat) :
    geom (writeSegAt segs i st c) = geom segs := by
  unfold writeSegAt
  cases hget : segs[i]? with
  | none => rfl
  | some s =>
    apply List.ext_getElem?
    intro j
    simp only [geom, List.getElem?_map]
    by_cases hij : i = j
    · subst hij
      rw [List.getElem?_set_self' ]
      rw [hget]
      simp
    · rw [List.getElem?_set_ne hij]

theorem applyPlan_geom (plan : List (Nat × Nat × Nat)) :
    ∀ (segs : List BufSeg) (data : List Nat) (offset : Nat),
      geom (applyPlan segs plan data offset) = geom segs := by
  induction plan with
  | nil => intro segs data offset; rfl
  | cons e rest ih =>
    intro segs data offset
    obtain ⟨i, st, en⟩ := e
    simp only [applyPlan]
    rw [ih, writeSegAt_geom]

theorem writeSegAt_getElem?_ne (segs : List BufSeg) (i j st : Nat)
    (c : List Nat) (h : i ≠ j) : (writeSegAt segs i st c)[j]? = segs[j]? := by
  unfold writeSegAt
  cases hget : segs[i]? with
  | none => rfl
  | some s => rw [List.getElem?_set_ne h]

theorem applyPlan_getElem?_ne (plan : List (Nat × Nat × Nat)) {i : Nat}
    (h : ∀ e ∈ plan, e.1 ≠ i) :
    ∀ (segs : List BufSeg) (data : List Nat) (offset : Nat),
      (applyPlan segs plan data offset)[i]? = segs[i]? := by
  induction plan with
  | nil => intro segs data offset; rfl
  | cons e rest ih =>
    intro segs data offset
    obtain ⟨j, st, en⟩ := e
    simp only [applyPlan]
    rw [ih (fun e he => h e (List.mem_cons_of_mem _ he))]
    exact writeSegAt_getElem?_ne segs j i st _ (h (j, st, en) (List.mem_cons_self _ _))

theorem applyPlan_shift (plan : List (Nat × Nat × Nat)) :
    ∀ (segs : List BufSeg) (data : List Nat) (c offset : Nat),
      applyPlan segs plan data (c + offset) = applyPlan segs plan (data.drop c) offset := by
  induction plan with
  | nil => intro segs data c offset; rfl
  | cons e rest ih =>
    intro segs data c offset
    obtain ⟨i, st, en⟩ := e
    show applyPlan
        (writeSegAt segs i st (listSlice data (c + offset) (c + offset + (en - st))))
        rest data (c + offset + (en - st))
      = applyPlan
        (writeSegAt segs i st (listSlice (data.drop c) offset (offset + (en - st))))
        rest (data.drop c) (offset + (en - st))
    have hch : listSlice (data.drop c) offset (offset + (en - st)) =
        listSlice data (c + offset) (c + offset + (en - st)) := by
      rw [listSlice_drop]
      congr 1
      omega
    rw [hch, show c + offset + (en - st) = c + (offset + (en - st)) from by omega, ih]

theorem applyPlan_drop (plan : List (Nat × Nat × Nat)) (segs : List BufSeg)
    (data : List Nat) (c : Nat) :
    applyPlan segs plan data c = applyPlan segs plan (data.drop c) 0 := by
  have h := applyPlan_shift plan segs data c 0
  simpa using h

theorem writeSegAt_getElem?_self {segs : List BufSeg} {i : Nat} {s : BufSeg}
    (hget : segs[i]? = some s) (st : Nat) (c : List Nat) :
    (writeSegAt segs i st c)[i]? = some { s with data := setSlice s.data st c } := by
  have hi : i < segs.length := by
    by_contra hno
    rw [List.getElem?_eq_none (by omega)] at hget
    exact Option.noConfusion hget
  unfold writeSegAt
  rw [hget, List.getElem?_set_self hi]

theorem readPlanData_cons (segs : List BufSeg) (i st en : Nat)
    (plan : List (Nat × Nat × Nat)) :
    readPlanData segs ((i, st, en) :: plan)
      = listSlice ((segs[i]?).getD default).data st en
          ++ readPlanData segs plan := by
  simp [readPlanData]

/-- Round-trip core: after a successful planned write of `b` at `[curr,
endAddr)`, re-walking the same range and joining the per-segment slices
reads back exactly `b`. -/
theorem roundtrip_aux :
    ∀ (fuel curr endAddr : Nat) (segs : List BufSeg) (b : List Nat)
      (plan : List (Nat × Nat × Nat)),
      (∀ (j : Nat) (s : BufSeg), segs[j]? = some s → s.data.length = s.size) →
      walkOffsets segs fuel curr endAddr = some plan →
      b.length = endAddr - curr → curr ≤ endAddr →
      readPlanData (applyPlan segs plan b 0) plan = b := by
  intro fuel
  induction fuel with
  | zero =>
    intro curr endAddr segs b plan hlen hw hb hce
    rw [walkOffsets] at hw
    split at hw
    · exact absurd hw (by simp)
    next hge =>
      injection hw with hw
      subst hw
      have hb0 : b = [] := List.eq_nil_of_length_eq_zero (by omega)
      subst hb0
      rfl
  | succ fuel ih =>
    intro curr endAddr segs b plan hlen hw hb hce
    by_cases hlt : curr < endAddr
    · cases hidx : segIdxByAddress segs curr with
      | none => rw [walkOffsets_succ_none hlt hidx] at hw; exact absurd hw (by simp)
      | some i =>
        obtain ⟨s, hget, hcont⟩ := segIdxByAddress_some hidx
        simp only [BufSeg.containsAddress, BufSeg.end_, decide_eq_true_eq] at hcont
        rw [walkOffsets_succ_eq hlt hidx hget] at hw
        cases hwr : walkOffsets segs fuel (s.start + min (endAddr - s.start) s.size)
            endAddr with
        | none => rw [hwr] at hw; exact absurd hw (by simp)
        | some rest =>
          rw [hwr] at hw
          injection hw with hw
          subst hw
          -- abbreviations
          have hstlt : curr - s.start < min (endAddr - s.start) s.size := by omega
          have hchunklen :
              (listSlice b 0 (min (endAddr - s.start) s.size - (curr - s.start))).length
                = min (endAddr - s.start) s.size - (curr - s.start) := by
            rw [listSlice_zero, List.length_take]
            omega
          have hslen := hlen i s hget
          -- the memory after the head write
          have hM : applyPlan segs
              ((i, curr - s.start, min (endAddr - s.start) s.size) :: rest) b 0
              = applyPlan
                  (writeSegAt segs i (curr - s.start)
                    (listSlice b 0 (min (endAddr - s.start) s.size - (curr - s.start))))
                  rest (b.drop (min (endAddr - s.start) s.size - (curr - s.start))) 0 := by
            show applyPlan
                (writeSegAt segs i (curr - s.start)
                  (listSlice b 0 (0 + (min (endAddr - s.start) s.size - (curr - s.start)))))
                rest b (0 + (min (endAddr - s.start) s.size - (curr - s.start))) = _
            rw [Nat.zero_add, applyPlan_drop]
          -- the entries of the remaining walk never touch segment `i`
          have hrestne : ∀ e ∈ rest, e.1 ≠ i := by
            intro e he hei
            obtain ⟨t, hgt, h1, h2⟩ := walkOffsets_entries hwr e he
            rw [hei, hget] at hgt
            injection hgt with hgt
            subst hgt
            rcases Nat.le_total (endAddr - s.start) s.size with hmin | hmin
            · rw [Nat.min_eq_left hmin] at hwr
              rw [walkOffsets_ge (by omega)] at hwr
              injection hwr with hwr
              subst hwr
              simp at he
            · rw [Nat.min_eq_right hmin] at h1
              omega
          have hm1len : ∀ (j : Nat) (t : BufSeg),
              (writeSegAt segs i (curr - s.start)
                (listSlice b 0 (min (endAddr - s.start) s.size - (curr - s.start))))[j]?
                  = some t → t.data.length = t.size := by
            intro j t hj
            by_cases hij : i = j
            · subst hij
              rw [writeSegAt_getElem?_self hget] at hj
              injection hj with hj
              subst hj
              simp only
              rw [setSlice_length]
              · exact hslen
              · rw [hchunklen]
                omega
            · rw [writeSegAt_getElem?_ne segs i j _ _ hij] at hj
              exact hlen j t hj
          have hm1geom : geom (writeSegAt segs i (curr - s.start)
              (listSlice b 0 (min (endAddr - s.start) s.size - (curr - s.start))))
                = geom segs := writeSegAt_geom ..
          have hwm1 : walkOffsets
              (writeSegAt segs i (curr - s.start)
                (listSlice b 0 (min (endAddr - s.start) s.size - (curr - s.start))))
              fuel (s.start + min (endAddr - s.start) s.size) endAddr = some rest := by
            rw [walkOffsets_geom hm1geom]
            exact hwr
          have hbdrop : (b.drop (min (endAddr - s.start) s.size - (curr - s.start))).length
              = endAddr - (s.start + min (endAddr - s.start) s.size) := by
            rw [List.length_drop]
            omega
          have hihres := ih (s.start + min (endAddr - s.start) s.size) endAddr
            (writeSegAt segs i (curr - s.start)
              (listSlice b 0 (min (endAddr - s.start) s.size - (curr - s.start))))
            (b.drop (min (endAddr - s.start) s.size - (curr - s.start))) rest
            hm1len hwm1 hbdrop (by omega)
          rw [hM, readPlanData_cons]
          have hMi : (applyPlan
              (writeSegAt segs i (curr - s.start)
                (listSlice b 0 (min (endAddr - s.start) s.size - (curr - s.start))))
              rest (b.drop (min (endAddr - s.start) s.size - (curr - s.start))) 0)[i]?
                = some { s with data := (setSlice s.data (curr - s.start)
                    (listSlice b 0 (min (endAddr - s.start) s.size - (curr - s.start)))) } := by
            rw [applyPlan_getElem?_ne rest hrestne, writeSegAt_getElem?_self hget]
          rw [hMi, hihres]
          show listSlice (setSlice s.data (curr - s.start)
              (listSlice b 0 (min (endAddr - s.start) s.size - (curr - s.start))))
              (curr - s.start) (min (endAddr - s.start) s.size)
              ++ b.drop (min (endAddr - s.start) s.size - (curr - s.start)) = b
          have hsl : listSlice (setSlice s.data (curr - s.start)
              (listSlice b 0 (min (endAddr - s.start) s.size - (curr - s.start))))
              (curr - s.start) (min (endAddr - s.start) s.size)
                = listSlice b 0 (min (endAddr - s.start) s.size - (curr - s.start)) := by
            have h1 := @listSlice_setSlice s.data
              (listSlice b 0 (min (endAddr - s.start) s.size - (curr - s.start)))
              (curr - s.start) (by rw [hchunklen]; omega)
            rw [hchunklen] at h1
            rw [show curr - s.start + (min (endAddr - s.start) s.size - (curr - s.start))
                = min (endAddr - s.start) s.size from by omega] at h1
            exact h1
          rw [hsl, listSlice_zero, List.take_append_drop]
    · rw [walkOffsets_ge (by omega)] at hw
      injection hw with hw
      subst hw
      have hb0 : b = [] := List.eq_nil_of_length_eq_zero (by omega)
      subst hb0
      rfl

/-! ## Claim C4 -/

/-- Shared helper: a covered buffer write followed by a read of the same
range returns exactly the written bytes. -/
theorem writeData_readData_roundtrip (segs : List BufSeg) (address : Nat)
    (b : List Nat)
    (hlen : ∀ s ∈ segs, s.data.length = s.size)
    (hcov : ∀ k, k < b.length → (segIdxByAddress segs (address + k)).isSome = true) :
    ∃ M, writeData segs address b = some M ∧ readData M address b.length = some b := by
  have hlen' : ∀ (j : Nat) (s : BufSeg), segs[j]? = some s → s.data.length = s.size :=
    fun j s hj => hlen s (List.getElem?_mem hj)
  have hcov' : ∀ a, address ≤ a → a < address + b.length →
      (segIdxByAddress segs a).isSome = true := by
    intro a h1 h2
    have h3 := hcov (a - address) (by omega)
    rwa [show address + (a - address) = a from by omega] at h3
  have hsome := @walkOffsets_isSome_of_covered segs b.length address
    (address + b.length) (by omega) hcov'
  cases hwalk : walkOffsets segs b.length address (address + b.length) with
  | none => rw [hwalk] at hsome; simp at hsome
  | some plan =>
    refine ⟨applyPlan segs plan b 0, ?_, ?_⟩
    · rw [writeData, hwalk]
      rfl
    · rw [readData, walkOffsets_geom (applyPlan_geom plan segs b 0), hwalk]
      simp only [Option.map_some']
      congr 1
      exact roundtrip_aux b.length address (address + b.length) segs b plan hlen'
        hwalk (by omega) (by omega)

/-- C4: For every `MappableMemory` M (buffer-backed, as `BufferMemory`),
every byte string `b`, and every address such that
`[address, address + b.length)` lies inside mapped segments, performing
`M.write(address, b)` and then `M.read(address, b.length)` returns
exactly `b`. -/
theorem mappable_write_then_read_roundtrip (segs : List BufSeg) (address : Nat)
    (b : List Nat)
    (hlen : ∀ s ∈ segs, s.data.length = s.size)
    (hcov : ∀ k, k < b.length → (segIdxByAddress segs (address + k)).isSome = true) :
    ∃ M, writeData segs address b = some M ∧ readData M address b.length = some b :=
  writeData_readData_roundtrip segs address b hlen hcov

/-- C4 witness: writing eight bytes straddling the two adjacent demo
segments and reading them back returns them (spec §8 scenario 3). -/
theorem mappable_write_then_read_roundtrip_witness :
    ∃ M, writeData demoSegs 0x100C [1, 1, 1, 1, 1, 1, 1, 1] = some M ∧
      readData M 0x100C 8 = some [1, 1, 1, 1, 1, 1, 1, 1] :=
  mappable_write_then_read_roundtrip demoSegs 0x100C [1, 1, 1, 1, 1, 1, 1, 1]
    (by decide) (by decide)

/-! ## Claim C2 -/

theorem overlaps_comm (s t : BufSeg) : s.overlaps t = t.overlaps s := by
  simp only [BufSeg.overlaps]
  rw [decide_eq_decide]
  exact and_comm

theorem nonOverlapping_geom {segs segs' : List BufSeg}
    (h : geom segs = geom segs') (hno : nonOverlapping segs) :
    nonOverlapping segs' := by
  unfold nonOverlapping at *
  have h1 : (geom segs).Pairwise
      (fun p q => ¬(p.2.1 < q.2.1 + q.2.2 ∧ q.2.1 < p.2.1 + p.2.2)) := by
    rw [geom, List.pairwise_map]
    refine hno.imp ?_
    intro s t hst
    simpa only [BufSeg.overlaps, BufSeg.end_, decide_eq_false_iff_not] using hst
  rw [h, geom, List.pairwise_map] at h1
  refine h1.imp ?_
  intro s t hst
  simpa only [BufSeg.overlaps, BufSeg.end_, decide_eq_false_iff_not] using hst

theorem nonOverlapping_getElem? {segs : List BufSeg} (hno : nonOverlapping segs)
    {i j : Nat} {s t : BufSeg} (hij : i ≠ j)
    (hi : segs[i]? = some s) (hj : segs[j]? = some t) :
    s.overlaps t = false := by
  have hil : i < segs.length := by
    by_contra hc
    rw [List.getElem?_eq_none (by omega)] at hi
    exact Option.noConfusion hi
  have hjl : j < segs.length := by
    by_contra hc
    rw [List.getElem?_eq_none (by omega)] at hj
    exact Option.noConfusion hj
  have hi' : segs[i] = s := by
    have := List.getElem?_eq_getElem hil
    rw [hi] at this
    exact (Option.some.inj this).symm
  have hj' : segs[j] = t := by
    have := List.getElem?_eq_getElem hjl
    rw [hj] at this
    exact (Option.some.inj this).symm
  rcases Nat.lt_or_ge i j with hlt | hge
  · have := (List.pairwise_iff_getElem.mp hno) i j hil hjl hlt
    rwa [hi', hj'] at this
  · have hjlt : j < i := by omega
    have := (List.pairwise_iff_getElem.mp hno) j i hjl hil hjlt
    rw [hi', hj'] at this
    rw [overlaps_comm]
    exact this

/-- Core of C2's success case: after a planned write, every segment's
buffer holds exactly its slice of the data (segments outside the written
range are untouched). -/
theorem splitWrite_aux :
    ∀ (fuel curr endAddr : Nat) (segs : List BufSeg) (data : List Nat)
      (plan : List (Nat × Nat × Nat)),
      nonOverlapping segs →
      (∀ (j : Nat) (s : BufSeg), segs[j]? = some s → s.data.length = s.size) →
      walkOffsets segs fuel curr endAddr = some plan →
      data.length = endAddr - curr → curr ≤ endAddr →
      ∀ (j : Nat) (s : BufSeg), segs[j]? = some s →
        (applyPlan segs plan data 0)[j]? = some { s with data :=
          (if max curr s.start < min endAddr (s.start + s.size) then
            setSlice s.data (max curr s.start - s.start)
              (listSlice data (max curr s.start - curr)
                (min endAddr (s.start + s.size) - curr))
          else s.data) } := by
  intro fuel
  induction fuel with
  | zero =>
    intro curr endAddr segs data plan hno hlen hw hdl hce j s hj
    rw [walkOffsets] at hw
    split at hw
    · exact absurd hw (by simp)
    next hge =>
      injection hw with hw
      subst hw
      rw [if_neg (by omega)]
      simpa using hj
  | succ fuel ih =>
    intro curr endAddr segs data plan hno hlen hw hdl hce j s hj
    by_cases hlt : curr < endAddr
    · cases hidx : segIdxByAddress segs curr with
      | none => rw [walkOffsets_succ_none hlt hidx] at hw; exact absurd hw (by simp)
      | some i =>
        obtain ⟨si, hget, hcont⟩ := segIdxByAddress_some hidx
        simp only [BufSeg.containsAddress, BufSeg.end_, decide_eq_true_eq] at hcont
        rw [walkOffsets_succ_eq hlt hidx hget] at hw
        cases hwr : walkOffsets segs fuel
            (si.start + min (endAddr - si.start) si.size) endAddr with
        | none => rw [hwr] at hw; exact absurd hw (by simp)
        | some rest =>
          rw [hwr] at hw
          injection hw with hw
          subst hw
          have hchunklen :
              (listSlice data 0
                (min (endAddr - si.start) si.size - (curr - si.start))).length
                = min (endAddr - si.start) si.size - (curr - si.start) := by
            rw [listSlice_zero, List.length_take]
            omega
          have hsilen := hlen i si hget
          have hM : applyPlan segs
              ((i, curr - si.start, min (endAddr - si.start) si.size) :: rest) data 0
              = applyPlan
                  (writeSegAt segs i (curr - si.start)
                    (listSlice data 0
                      (min (endAddr - si.start) si.size - (curr - si.start))))
                  rest
                  (data.drop (min (endAddr - si.start) si.size - (curr - si.start)))
                  0 := by
            show applyPlan
                (writeSegAt segs i (curr - si.start)
                  (listSlice data 0
                    (0 + (min (endAddr - si.start) si.size - (curr - si.start)))))
                rest data
                (0 + (min (endAddr - si.start) si.size - (curr - si.start))) = _
            rw [Nat.zero_add, applyPlan_drop]
          have hrestne : ∀ e ∈ rest, e.1 ≠ i := by
            intro e he hei
            obtain ⟨t, hgt, h1, h2⟩ := walkOffsets_entries hwr e he
            rw [hei, hget] at hgt
            injection hgt with hgt
            subst hgt
            rcases Nat.le_total (endAddr - si.start) si.size with hmin | hmin
            · rw [Nat.min_eq_left hmin] at hwr
              rw [walkOffsets_ge (by omega)] at hwr
              injection hwr with hwr
              subst hwr
              simp at he
            · rw [Nat.min_eq_right hmin] at h1
              omega
          have hm1geom : geom (writeSegAt segs i (curr - si.start)
              (listSlice data 0 (min (endAddr - si.start) si.size - (curr - si.start))))
                = geom segs := writeSegAt_geom ..
          have hm1no : nonOverlapping (writeSegAt segs i (curr - si.start)
              (listSlice data 0
                (min (endAddr - si.start) si.size - (curr - si.start)))) :=
            nonOverlapping_geom hm1geom.symm hno
          have hm1len : ∀ (k : Nat) (t : BufSeg),
              (writeSegAt segs i (curr - si.start)
                (listSlice data 0
                  (min (endAddr - si.start) si.size - (curr - si.start))))[k]?
                    = some t → t.data.length = t.size := by
            intro k t hk
            by_cases hik : i = k
            · subst hik
              rw [writeSegAt_getElem?_self hget] at hk
              injection hk with hk
              subst hk
              simp only
              rw [setSlice_length]
              · exact hsilen
              · rw [hchunklen]
                omega
            · rw [writeSegAt_getElem?_ne segs i k _ _ hik] at hk
              exact hlen k t hk
          have hwm1 : walkOffsets
              (writeSegAt segs i (curr - si.start)
                (listSlice data 0
                  (min (endAddr - si.start) si.size - (curr - si.start))))
              fuel (si.start + min (endAddr - si.start) si.size) endAddr
                = some rest := by
            rw [walkOffsets_geom hm1geom]
            exact hwr
          have hddlen : (data.drop
              (min (endAddr - si.start) si.size - (curr - si.start))).length
                = endAddr - (si.start + min (endAddr - si.start) si.size) := by
            rw [List.length_drop]
            omega
          rw [hM]
          by_cases hij : j = i
          · -- the segment found at `curr`: its region is written by the head
            -- chunk and never touched again
            subst hij
            have hsj : si = s := by
              rw [hget] at hj
              exact Option.some.inj hj
            subst hsj
            rw [applyPlan_getElem?_ne rest hrestne, writeSegAt_getElem?_self hget]
            rw [if_pos (by omega)]
            have h1 : max curr si.start = curr := by omega
            have h2 : min endAddr (si.start + si.size)
                = si.start + min (endAddr - si.start) si.size := by omega
            rw [h1, h2]
            have h3 : listSlice data (curr - curr)
                (si.start + min (endAddr - si.start) si.size - curr)
                  = listSlice data 0
                    (min (endAddr - si.start) si.size - (curr - si.start)) := by
              congr 1
              · omega
              · omega
            rw [h3]
          · -- any other segment: unchanged by the head write; induction for
            -- the rest of the walk
            have hm1j : (writeSegAt segs i (curr - si.start)
                (listSlice data 0
                  (min (endAddr - si.start) si.size - (curr - si.start))))[j]?
                    = some s := by
              rw [writeSegAt_getElem?_ne segs i j _ _ (fun h => hij h.symm)]
              exact hj
            have hres := ih (si.start + min (endAddr - si.start) si.size) endAddr
              (writeSegAt segs i (curr - si.start)
                (listSlice data 0
                  (min (endAddr - si.start) si.size - (curr - si.start))))
              (data.drop (min (endAddr - si.start) si.size - (curr - si.start)))
              rest hm1no hm1len hwm1 hddlen (by omega) j s hm1j
            rw [hres]
            have hnov := nonOverlapping_getElem? hno (fun h => hij h.symm) hget hj
            simp only [BufSeg.overlaps, BufSeg.end_, decide_eq_false_iff_not] at hnov
            by_cases hint : max curr s.start < min endAddr (s.start + s.size)
            · -- `s` intersects the written range; the intersection lies at or
              -- after the next walk address because `s` cannot overlap `si`
              have hlo : si.start + min (endAddr - si.start) si.size
                  ≤ max curr s.start := by
                by_contra hc
                push_neg at hc
                apply hnov
                constructor
                · omega
                · omega
              rw [if_pos (by omega)]
              have h1 : max (si.start + min (endAddr - si.start) si.size) s.start
                  = max curr s.start := by omega
              rw [h1]
              have h2 : listSlice
                  (data.drop (min (endAddr - si.start) si.size - (curr - si.start)))
                  (max curr s.start - (si.start + min (endAddr - si.start) si.size))
                  (min endAddr (s.start + s.size)
                    - (si.start + min (endAddr - si.start) si.size))
                    = listSlice data (max curr s.start - curr)
                      (min endAddr (s.start + s.size) - curr) := by
                rw [listSlice_drop]
                congr 1
                · omega
                · omega
              rw [h2, if_pos hint]
            · rw [if_neg (by omega), if_neg hint]
    · rw [walkOffsets_ge (by omega)] at hw
      injection hw with hw
      subst hw
      rw [if_neg (by omega)]
      simpa using hj

/-- C2: For every `SplittingSegmentMemory`, every address and every byte
string: if the requested write range contains any unmapped address, the
write fails with `MemoryAccessError` whose access records the whole
request and whose cause is `unmapped`, and no segment's contents are
modified (the plan is materialized before the first segment write);
if the range is fully covered, the write succeeds and each segment
receives exactly its slice of the data. -/
theorem splitting_write_spec (segs : List BufSeg) (address : Nat)
    (data : List Nat) (hno : nonOverlapping segs)
    (hlen : ∀ s ∈ segs, s.data.length = s.size) :
    ((∃ k, k < data.length ∧ segIdxByAddress segs (address + k) = none) →
      splitWrite segs address data =
        (segs, some ⟨⟨AccessType.W, address, data.length, some data⟩, "unmapped"⟩)) ∧
    ((∀ k, k < data.length → (segIdxByAddress segs (address + k)).isSome = true) →
      (splitWrite segs address data).2 = none ∧
      ∀ (j : Nat) (s : BufSeg), segs[j]? = some s →
        ((splitWrite segs address data).1)[j]? = some { s with data :=
          (if max address s.start < min (address + data.length) (s.start + s.size) then
            setSlice s.data (max address s.start - s.start)
              (listSlice data (max address s.start - address)
                (min (address + data.length) (s.start + s.size) - address))
          else s.data) }) := by
  constructor
  · rintro ⟨k, hk, hnone⟩
    cases hwalk : walkOffsets segs data.length address (address + data.length) with
    | none => simp only [splitWrite, hwalk]
    | some plan =>
      have h1 := walkOffsets_covers hwalk (address + k) (by omega) (by omega)
      rw [hnone] at h1
      simp at h1
  · intro hcov
    have hlen' : ∀ (j : Nat) (s : BufSeg), segs[j]? = some s → s.data.length = s.size :=
      fun j s hj => hlen s (List.getElem?_mem hj)
    have hcov' : ∀ a, address ≤ a → a < address + data.length →
        (segIdxByAddress segs a).isSome = true := by
      intro a h1 h2
      have h3 := hcov (a - address) (by omega)
      rwa [show address + (a - address) = a from by omega] at h3
    have hsome := @walkOffsets_isSome_of_covered segs data.length address
      (address + data.length) (by omega) hcov'
    cases hwalk : walkOffsets segs data.length address (address + data.length) with
    | none => rw [hwalk] at hsome; simp at hsome
    | some plan =>
      simp only [splitWrite, hwalk]
      refine ⟨trivial, ?_⟩
      intro j s hj
      exact splitWrite_aux data.length address (address + data.length) segs data
        plan hno hlen' hwalk (by omega) (by omega) j s hj

/-- C2 witness: a write straddling the two adjacent demo segments succeeds
with no error, and a write at an unmapped address fails with the
whole-request access and cause `unmapped`, leaving the memory unchanged. -/
theorem splitting_write_spec_witness :
    (splitWrite demoSegs 0x100C (List.replicate 8 1)).2 = none ∧
    splitWrite demoSegs 0x2000 [1] =
      (demoSegs, some ⟨⟨AccessType.W, 0x2000, 1, some [1]⟩, "unmapped"⟩) := by
  constructor
  · exact ((splitting_write_spec demoSegs 0x100C (List.replicate 8 1)
      (by decide) (by decide)).2 (by decide)).1
  · exact (splitting_write_spec demoSegs 0x2000 [1] (by decide) (by decide)).1
      ⟨0, by decide, by decide⟩

/-! ## Claim C7 -/

/-- C7: `load(name, addr, data, perms)` is `map` followed by `write`, and
the memory is never left with a half-mapped segment: a `map` failure adds
no segment, and after a successful `map` the write step always succeeds,
because the new segment exactly covers the written range — so the
write-failure case (which the source does not unwind) is unreachable. -/
theorem load_map_then_write_no_leak (segs : List BufSeg) (name : String)
    (address : Nat) (data : List Nat) (perms : AccessType) :
    (∀ e, bmMap segs name address data.length perms = .error e →
      bmLoad segs name address data perms = (segs, some (.mapError e))) ∧
    (∀ m1, bmMap segs name address data.length perms = .ok m1 →
      ∃ m2, writeData m1 address data = some m2 ∧
        bmLoad segs name address data perms = (m2, none)) := by
  constructor
  · intro e he
    simp only [bmLoad, he]
  · intro m1 hm
    have hm1 : m1 = segs ++
        [⟨name, address, data.length, perms, List.replicate data.length 0⟩] := by
      unfold bmMap addSegment at hm
      split at hm
      · exact absurd hm (by simp)
      · split at hm
        · exact absurd hm (by simp)
        · exact (Except.ok.inj hm).symm
    have hnew : m1[segs.length]?
        = some ⟨name, address, data.length, perms, List.replicate data.length 0⟩ := by
      rw [hm1, List.getElem?_append_right (Nat.le_refl _)]
      simp
    have hcov : ∀ a, address ≤ a → a < address + data.length →
        (segIdxByAddress m1 a).isSome = true := by
      intro a h1 h2
      refine segIdxByAddress_isSome_of_mem hnew ?_
      simp only [BufSeg.containsAddress, BufSeg.end_, decide_eq_true_eq]
      omega
    have hsome := @walkOffsets_isSome_of_covered m1 data.length address
      (address + data.length) (by omega) hcov
    cases hwalk : walkOffsets m1 data.length address (address + data.length) with
    | none => rw [hwalk] at hsome; simp at hsome
    | some plan =>
      refine ⟨applyPlan m1 plan data 0, ?_, ?_⟩
      · rw [writeData, hwalk]
        rfl
      · simp only [bmLoad, hm, writeData, hwalk, Option.map_some']

/-- C7 witness: loading two bytes into a fresh memory maps the segment and
writes the data; the write step succeeds. -/
theorem load_map_then_write_no_leak_witness :
    ∃ m2, writeData [⟨"a", 0x1000, 2, AccessType.RWX, [0, 0]⟩] 0x1000 [5, 6]
        = some m2 ∧
      bmLoad [] "a" 0x1000 [5, 6] AccessType.RWX = (m2, none) :=
  (load_map_then_write_no_leak [] "a" 0x1000 [5, 6] AccessType.RWX).2
    [⟨"a", 0x1000, 2, AccessType.RWX, [0, 0]⟩] (by rfl)

/-! ## Claim C8 -/

theorem foldl_max_le_init (l : List Nat) : ∀ (a : Nat), a ≤ l.foldl max a := by
  induction l with
  | nil => intro a; simp
  | cons x xs ih =>
    intro a
    exact le_trans (Nat.le_max_left a x) (ih (max a x))

theorem foldl_max_le_mem {l : List Nat} {x : Nat} (h : x ∈ l) :
    ∀ (a : Nat), x ≤ l.foldl max a := by
  induction l with
  | nil => simp at h
  | cons y ys ih =>
    intro a
    rcases List.mem_cons.mp h with rfl | hm
    · exact le_trans (Nat.le_max_right a x) (foldl_max_le_init ys _)
    · exact ih hm (max a y)

theorem round_up_spec (n m : Nat) (hm : 0 < m) :
    m ∣ round_up n m ∧ n ≤ round_up n m ∧ round_up n m < n + m := by
  unfold round_up
  have h1 := Nat.div_add_mod (n + m - 1) m
  have h2 : (n + m - 1) % m < m := Nat.mod_lt _ hm
  refine ⟨⟨(n + m - 1) / m, Nat.mul_comm _ _⟩, ?_, ?_⟩
  · have h3 : (n + m - 1) / m * m = m * ((n + m - 1) / m) := Nat.mul_comm _ _
    rw [h3]
    generalize m * ((n + m - 1) / m) = t at *
    omega
  · have h3 : (n + m - 1) / m * m = m * ((n + m - 1) / m) := Nat.mul_comm _ _
    rw [h3]
    generalize m * ((n + m - 1) / m) = t at *
    omega

/-- C8: `allocate(name, size, perms)` maps the new segment at
`max(MIN_ALLOC_ADDRESS, max(seg.end for existing segments))` rounded up to
a multiple of `ALLOC_ROUND_SIZE`; with no prior segments it places the
segment at `0x1000`, and after a segment ending at `0x1100` the next
allocation is placed at `0x2000`. -/
theorem allocate_address_spec (segs : List BufSeg) (name : String) (size : Nat)
    (perms : AccessType) :
    bmAllocate segs name size perms
      = bmMap segs name (allocAddress segs) size perms ∧
    ALLOC_ROUND_SIZE ∣ allocAddress segs ∧
    (∀ s ∈ segs, s.end_ ≤ allocAddress segs) ∧
    MIN_ALLOC_ADDRESS ≤ allocAddress segs ∧
    allocAddress segs
      < (segs.map BufSeg.end_).foldl max MIN_ALLOC_ADDRESS + ALLOC_ROUND_SIZE ∧
    bmAllocate [] "x" 0x100 AccessType.RWX
      = .ok [⟨"x", 0x1000, 0x100, AccessType.RWX, List.replicate 0x100 0⟩] ∧
    allocAddress [⟨"x", 0x1000, 0x100, AccessType.RWX, List.replicate 0x100 0⟩]
      = 0x2000 := by
  have hr := round_up_spec ((segs.map BufSeg.end_).foldl max MIN_ALLOC_ADDRESS)
    ALLOC_ROUND_SIZE (by decide)
  refine ⟨rfl, hr.1, ?_, ?_, hr.2.2, by rfl, by decide⟩
  · intro s hs
    exact le_trans
      (foldl_max_le_mem (List.mem_map_of_mem BufSeg.end_ hs) MIN_ALLOC_ADDRESS)
      hr.2.1
  · exact le_trans (foldl_max_le_init _ MIN_ALLOC_ADDRESS) hr.2.1

/-- C8 witness: the general characterization applied to the demo memory —
both demo segments end at or below the allocation address, which is the
page-aligned `0x2000`. -/
theorem allocate_address_spec_witness :
    allocAddress demoSegs = 0x2000 ∧
    ∀ s ∈ demoSegs, s.end_ ≤ allocAddress demoSegs := by
  refine ⟨by decide, ?_⟩
  exact (allocate_address_spec demoSegs "z" 0x10 AccessType.RWX).2.2.1

/-! ## Claim C3 -/

/-- C3 counterexample: `DatabaseEntry.register` performs no duplicate
check — registering an entry whose canonical name equals that of an
already registered entry succeeds and appends it, leaving the catalog
changed (the claim requires an error leaving the catalog unchanged). -/
theorem registerEntry_duplicate_accepted :
    registerEntry [⟨"arm", []⟩] ⟨"arm", []⟩ = [⟨"arm", []⟩, ⟨"arm", []⟩] ∧
    registerEntry [⟨"arm", []⟩] ⟨"arm", []⟩ ≠ [⟨"arm", []⟩] := by
  constructor
  · rfl
  · decide

/-- C3 (amended): `register` never fails: it unconditionally appends the
entry to the catalog — duplicate canonical or alternate names are not
detected — and lookups continue to return the earlier-registered entry
(first match in registration order). -/
theorem registerEntry_always_appends (catalog : List DatabaseEntry)
    (e : DatabaseEntry) :
    (registerEntry catalog e).length = catalog.length + 1 ∧
    (∀ (x : DatabaseEntry) (nm : String), byName catalog nm = some x →
      byName (registerEntry catalog e) nm = some x) := by
  constructor
  · simp [registerEntry]
  · intro x nm h
    simp only [registerEntry, byName] at h ⊢
    rw [List.find?_append, h]
    rfl

/-- C3 (amended) witness: registering `"thumb"` into a catalog already
holding `"arm"` grows the catalog, and `"arm"` still resolves to the
original entry. -/
theorem registerEntry_always_appends_witness :
    (registerEntry [⟨"arm", ["armv7"]⟩] ⟨"thumb", []⟩).length = 2 ∧
    byName (registerEntry [⟨"arm", ["armv7"]⟩] ⟨"thumb", []⟩) "ARM"
      = some ⟨"arm", ["armv7"]⟩ := by
  have h := registerEntry_always_appends [⟨"arm", ["armv7"]⟩] ⟨"thumb", []⟩
  exact ⟨h.1, h.2 ⟨"arm", ["armv7"]⟩ "ARM" (by decide)⟩

/-! ## Claim C9 -/

/-- C9 counterexample: `by_name` lowercases only the query, not the stored
names, so an entry registered with the uppercase canonical name `"ARM"` is
not found even by the query `"ARM"` itself (which matches it
case-insensitively); the lookup raises `NotFoundError`. -/
theorem byName_misses_uppercase_stored :
    byName [⟨"ARM", []⟩] "ARM" = none ∧
    (⟨"ARM", []⟩ : DatabaseEntry).name = "ARM" ∧
    lowerString "ARM" = lowerString "ARM" := by
  refine ⟨by decide, rfl, rfl⟩

/-- C9 (amended): `by_name` lowercases the query and returns the first
entry whose stored canonical name or alternate name equals the lowercased
query exactly; hence lookup is case-insensitive in the query (two queries
with the same lowercasing give the same result), a found entry really
matches, and `NotFoundError` is raised exactly when no stored name equals
the lowercased query.  Stored names are found regardless of query case
only when they are stored in lowercase. -/
theorem byName_query_case_insensitive (catalog : List DatabaseEntry)
    (n1 n2 nm : String) :
    (lowerString n1 = lowerString n2 → byName catalog n1 = byName catalog n2) ∧
    (∀ e, byName catalog nm = some e →
      e ∈ catalog ∧ entryMatches e (lowerString nm) = true) ∧
    (byName catalog nm = none ↔
      ∀ e ∈ catalog, entryMatches e (lowerString nm) = false) := by
  refine ⟨fun h => by simp [byName, h], ?_, ?_⟩
  · intro e h
    rw [byName] at h
    have h2 := List.find?_some h
    exact ⟨List.mem_of_find?_eq_some h, h2⟩
  · rw [byName, List.find?_eq_none]
    constructor
    · intro h e he
      have h1 := h e he
      simpa using h1
    · intro h e he
      simp [h e he]

/-- C9 (amended) witness: with the lowercase stored name `"arm"`, the
queries `"ARM"` and `"Arm"` resolve identically. -/
theorem byName_query_case_insensitive_witness :
    byName [⟨"arm", []⟩] "ARM" = byName [⟨"arm", []⟩] "Arm" :=
  (byName_query_case_insensitive [⟨"arm", []⟩] "ARM" "Arm" "x").1 (by decide)

/-! ## Claims C1 and C5 -/

/-- C1 (code bug): `Emulator._run` translates `count=None` into the engine
count `0`, which the engine reads as "no limit"; `run(count=0)` therefore
takes the very same engine call as `run(count=None)` — for every program,
hook set and state the two runs are identical — and on the demo program
`run(count=0)` executes all three instructions and modifies `reg0`
(while still reporting `StopReason(COUNT)`), contradicting the claim that
`count=0` executes no instruction. -/
theorem run_count_zero_is_unlimited :
    (∀ (step : Nat → Nat → Option (Nat × Nat)) (hooks : List Hook)
        (fuel : Nat) (s : DbgState),
      debuggerRun step hooks fuel (some 0) s = debuggerRun step hooks fuel none s) ∧
    (debuggerRun demoStep [] 8 (some 0) demoInit).2.2 = 3 ∧
    (debuggerRun demoStep [] 8 (some 0) demoInit).2.1.reg0 = 3 ∧
    demoInit.reg0 = 0 ∧
    (debuggerRun demoStep [] 8 (some 0) demoInit).1 = ⟨.count, none⟩ := by
  refine ⟨fun step hooks fuel s => rfl, ?_, ?_, rfl, ?_⟩ <;> rfl

theorem dispatchHooks_halted {s : DbgState} (hooks : List Hook) (pc : Nat)
    (h : s.engineStopped = true) : dispatchHooks hooks pc s = s := by
  cases hooks with
  | nil => rfl
  | cons k rest => simp [dispatchHooks, h]

theorem handleHook_nop {h : Hook} (s : DbgState) (ha : h.action = .nop) :
    handleHook h s
      = { s with currHook := none, dispatched := s.dispatched ++ [h] } := by
  simp [handleHook, ha]

theorem handleHook_stop {h : Hook} (s : DbgState) (ha : h.action = .stop) :
    handleHook h s = { s with currHook := none, dispatched := s.dispatched ++ [h], stopHookReg := some h, engineStopped := true } := by
  simp [handleHook, ha]

theorem dispatchHooks_spec (pc : Nat) :
    ∀ (hooks : List Hook) (s : DbgState),
      s.engineStopped = false → s.stopHookReg = none →
      ∃ ds, (dispatchHooks hooks pc s).dispatched = s.dispatched ++ ds ∧
        (dispatchHooks hooks pc s).pc = s.pc ∧
        (dispatchHooks hooks pc s).reg0 = s.reg0 ∧
        (match ds.find? isStopHook with
         | some h => (dispatchHooks hooks pc s).stopHookReg = some h ∧
             (dispatchHooks hooks pc s).engineStopped = true
         | none => (dispatchHooks hooks pc s).stopHookReg = none ∧
             (dispatchHooks hooks pc s).engineStopped = false) := by
  intro hooks
  induction hooks with
  | nil =>
    intro s h1 h2
    exact ⟨[], by simp [dispatchHooks], rfl, rfl, by simp [dispatchHooks, h1, h2]⟩
  | cons h rest ih =>
    intro s h1 h2
    simp only [dispatchHooks, h1, Bool.false_eq_true, if_false]
    by_cases hm : hookMatches h pc
    · rw [if_pos hm]
      cases ha : h.action with
      | nop =>
        have hrec := handleHook_nop s ha
        have ha1 : (handleHook h s).engineStopped = false := by rw [hrec]; exact h1
        have ha2 : (handleHook h s).stopHookReg = none := by rw [hrec]; exact h2
        obtain ⟨ds, hd, hpc, hr, hst⟩ := ih (handleHook h s) ha1 ha2
        refine ⟨h :: ds, ?_, ?_, ?_, ?_⟩
        · rw [hd, hrec]
          simp
        · rw [hpc, hrec]
        · rw [hr, hrec]
        · have hfind : (h :: ds).find? isStopHook = ds.find? isStopHook := by
            simp [List.find?_cons, isStopHook, ha]
          rw [hfind]
          exact hst
      | stop =>
        have hrec := handleHook_stop s ha
        have ha1 : (handleHook h s).engineStopped = true := by rw [hrec]
        rw [dispatchHooks_halted rest pc ha1]
        refine ⟨[h], ?_, ?_, ?_, ?_⟩
        · rw [hrec]
        · rw [hrec]
        · rw [hrec]
        · have hfind : ([h] : List Hook).find? isStopHook = some h := by
            simp [List.find?_cons, isStopHook, ha]
          rw [hfind, hrec]
          exact ⟨rfl, rfl⟩
    · rw [if_neg hm]
      exact ih s h1 h2

theorem engineRun_succ_stopped {step : Nat → Nat → Option (Nat × Nat)}
    {hooks : List Hook} {fuel count executed : Nat} {s : DbgState}
    (h : (dispatchHooks hooks s.pc s).engineStopped = true) :
    engineRun step hooks (fuel + 1) count executed s
      = (dispatchHooks hooks s.pc s, executed) := by
  simp [engineRun, h]

theorem engineRun_succ_nostep {step : Nat → Nat → Option (Nat × Nat)}
    {hooks : List Hook} {fuel count executed : Nat} {s : DbgState}
    (h : (dispatchHooks hooks s.pc s).engineStopped = false)
    (hs : step (dispatchHooks hooks s.pc s).pc (dispatchHooks hooks s.pc s).reg0
      = none) :
    engineRun step hooks (fuel + 1) count executed s
      = (dispatchHooks hooks s.pc s, executed) := by
  simp [engineRun, h, hs]

theorem engineRun_succ_last {step : Nat → Nat → Option (Nat × Nat)}
    {hooks : List Hook} {fuel count executed : Nat} {s : DbgState}
    {pr : Nat × Nat}
    (h : (dispatchHooks hooks s.pc s).engineStopped = false)
    (hs : step (dispatchHooks hooks s.pc s).pc (dispatchHooks hooks s.pc s).reg0
      = some pr)
    (hc : count = executed + 1) :
    engineRun step hooks (fuel + 1) count executed s
      = ({ (dispatchHooks hooks s.pc s) with pc := pr.1, reg0 := pr.2 },
          executed + 1) := by
  simp [engineRun, h, hs, hc]

theorem engineRun_succ_cont {step : Nat → Nat → Option (Nat × Nat)}
    {hooks : List Hook} {fuel count executed : Nat} {s : DbgState}
    {pr : Nat × Nat}
    (h : (dispatchHooks hooks s.pc s).engineStopped = false)
    (hs : step (dispatchHooks hooks s.pc s).pc (dispatchHooks hooks s.pc s).reg0
      = some pr)
    (hc : ¬count = executed + 1) :
    engineRun step hooks (fuel + 1) count executed s
      = engineRun step hooks fuel count (executed + 1)
          { (dispatchHooks hooks s.pc s) with pc := pr.1, reg0 := pr.2 } := by
  simp [engineRun, h, hs, hc]

theorem engineRun_spec (step : Nat → Nat → Option (Nat × Nat))
    (hooks : List Hook) :
    ∀ (fuel count executed : Nat) (s : DbgState),
      s.engineStopped = false → s.stopHookReg = none →
      ∃ ds, (engineRun step hooks fuel count executed s).1.dispatched
          = s.dispatched ++ ds ∧
        (match ds.find? isStopHook with
         | some h => (engineRun step hooks fuel count executed s).1.stopHookReg
             = some h
         | none => (engineRun step hooks fuel count executed s).1.stopHookReg
             = none) := by
  intro fuel
  induction fuel with
  | zero =>
    intro count executed s h1 h2
    exact ⟨[], by simp [engineRun], by simp [engineRun, h2]⟩
  | succ fuel ih =>
    intro count executed s h1 h2
    obtain ⟨ds, hd, hpc, hr, hst⟩ := dispatchHooks_spec s.pc hooks s h1 h2
    cases hf : ds.find? isStopHook with
    | some h =>
      rw [hf] at hst
      rw [engineRun_succ_stopped hst.2]
      exact ⟨ds, hd, by rw [hf]; exact hst.1⟩
    | none =>
      rw [hf] at hst
      cases hstep : step (dispatchHooks hooks s.pc s).pc
          (dispatchHooks hooks s.pc s).reg0 with
      | none =>
        rw [engineRun_succ_nostep hst.2 hstep]
        exact ⟨ds, hd, by rw [hf]; exact hst.1⟩
      | some pr =>
        by_cases hc : count = executed + 1
        · rw [engineRun_succ_last hst.2 hstep hc]
          refine ⟨ds, ?_, ?_⟩
          · show (dispatchHooks hooks s.pc s).dispatched = s.dispatched ++ ds
            exact hd
          · rw [hf]
            show (dispatchHooks hooks s.pc s).stopHookReg = none
            exact hst.1
        · rw [engineRun_succ_cont hst.2 hstep hc]
          obtain ⟨ds2, hd2, hst2⟩ := ih count (executed + 1)
            { (dispatchHooks hooks s.pc s) with pc := pr.1, reg0 := pr.2 }
            hst.2 hst.1
          refine ⟨ds ++ ds2, ?_, ?_⟩
          · rw [hd2]
            show (dispatchHooks hooks s.pc s).dispatched ++ ds2
              = s.dispatched ++ (ds ++ ds2)
            rw [hd, List.append_assoc]
          · rw [List.find?_append, hf]
            simpa using hst2

/-- C5: if a hook callback invoked during `run` calls `stop()`, the run
returns `StopReason(HOOK, h)` where `h` is the (first, hence only) invoked
hook whose callback called `stop()`; if no invoked hook calls `stop()` and
the run completes, it returns `StopReason(COUNT)`.  The `.2.1.dispatched`
component is the log of hook callbacks invoked during the run, in
invocation order. -/
theorem run_spec_core (step : Nat → Nat → Option (Nat × Nat))
    (hooks : List Hook) (fuel u : Nat) (s : DbgState)
    (hstopped : s.engineStopped = false) (hlog : s.dispatched = [])
    (r : StopReason × DbgState × Nat)
    (hr : r = (match (engineRun step hooks fuel u 0
          { s with stopHookReg := none }).1.stopHookReg with
       | some h => ((⟨StopType.hook, some h⟩ : StopReason),
           (engineRun step hooks fuel u 0 { s with stopHookReg := none }).1,
           (engineRun step hooks fuel u 0 { s with stopHookReg := none }).2)
       | none => ((⟨StopType.count, none⟩ : StopReason),
           (engineRun step hooks fuel u 0 { s with stopHookReg := none }).1,
           (engineRun step hooks fuel u 0 { s with stopHookReg := none }).2))) :
    ((∀ h ∈ r.2.1.dispatched, h.action ≠ HookAction.stop) →
      r.1 = ⟨.count, none⟩) ∧
    (∀ h, r.2.1.dispatched.find? isStopHook = some h →
      r.1 = ⟨.hook, some h⟩) := by
  obtain ⟨ds, hd, hst⟩ := engineRun_spec step hooks fuel u 0
    { s with stopHookReg := none } hstopped rfl
  set E := engineRun step hooks fuel u 0 { s with stopHookReg := none } with hE
  rw [hlog] at hd
  cases hv : E.1.stopHookReg with
  | some h0 =>
    rw [hv] at hr
    rw [hr]
    constructor
    · intro hnone
      exfalso
      cases hf : ds.find? isStopHook with
      | none =>
        rw [hf] at hst
        rw [hst] at hv
        exact Option.noConfusion hv
      | some h1 =>
        have hmem := List.mem_of_find?_eq_some hf
        have hstop := List.find?_some hf
        refine hnone h1 ?_ (by simpa [isStopHook] using hstop)
        show h1 ∈ E.1.dispatched
        rw [hd]
        simpa using hmem
    · intro h hfind
      have hfind2 : ds.find? isStopHook = some h := by
        have hfind3 : (E.1.dispatched).find? isStopHook = some h := hfind
        rw [hd] at hfind3
        simpa using hfind3
      rw [hfind2] at hst
      rw [hst] at hv
      rw [Option.some.inj hv]
  | none =>
    rw [hv] at hr
    rw [hr]
    refine ⟨fun _ => rfl, ?_⟩
    intro h hfind
    exfalso
    have hfind2 : ds.find? isStopHook = some h := by
      have hfind3 : (E.1.dispatched).find? isStopHook = some h := hfind
      rw [hd] at hfind3
      simpa using hfind3
    rw [hfind2] at hst
    rw [hst] at hv
    exact Option.noConfusion hv

/-- C5: if a hook callback invoked during `run` calls `stop()`, the run
returns `StopReason(HOOK, h)` where `h` is the (first, hence only) invoked
hook whose callback called `stop()`; if no invoked hook calls `stop()` and
the run completes, it returns `StopReason(COUNT)`.  The `.2.1.dispatched`
component is the log of hook callbacks invoked during the run, in
invocation order. -/
theorem run_stop_reason_spec (step : Nat → Nat → Option (Nat × Nat))
    (hooks : List Hook) (fuel : Nat) (count : Option Nat) (s : DbgState)
    (hstopped : s.engineStopped = false) (hlog : s.dispatched = []) :
    ((∀ h ∈ (debuggerRun step hooks fuel count s).2.1.dispatched,
        h.action ≠ HookAction.stop) →
      (debuggerRun step hooks fuel count s).1 = ⟨.count, none⟩) ∧
    (∀ h, (debuggerRun step hooks fuel count s).2.1.dispatched.find? isStopHook
        = some h →
      (debuggerRun step hooks fuel count s).1 = ⟨.hook, some h⟩) := by
  cases count with
  | none => exact run_spec_core step hooks fuel 0 s hstopped hlog _ rfl
  | some c => exact run_spec_core step hooks fuel c s hstopped hlog _ rfl

/-- C5 witness: on the demo program with a breakpoint at `0x1004`, `run`
returns `StopReason(HOOK, bp)`. -/
theorem run_stop_reason_spec_witness :
    (debuggerRun demoStep [demoBp] 8 none demoInit).1 = ⟨.hook, some demoBp⟩ :=
  (run_stop_reason_spec demoStep [demoBp] 8 none demoInit rfl rfl).2 demoBp
    (by decide)

/-! ## Claim C6 -/

theorem disasmReadSize_le (maxNum : Option Nat) (maxInsn sizeRemaining count : Nat) :
    disasmReadSize maxNum maxInsn sizeRemaining count ≤ sizeRemaining := by
  cases maxNum <;> simp [disasmReadSize]

theorem disasmGuard_offset {maxNum : Option Nat} {minInsn maxSize offset count : Nat}
    (h : disasmGuard maxNum minInsn maxSize offset count = true) :
    offset + minInsn ≤ maxSize := by
  have h2 := (Bool.and_eq_true _ _).mp h
  exact of_decide_eq_true h2.2

/-- All reads issued by the `_disassemble_known_size` loop lie inside
`[address + offset, address + maxSize)`, and the emitted instruction sizes
sum to at most `maxSize - offset`, for every fuel. -/
theorem disasmKnownSize_bounds (dis : List Nat → Nat → Option Nat → List Insn)
    (minInsn maxInsn : Nat) (readF : Nat → Nat → List Nat)
    (address maxSize : Nat) (maxNum : Option Nat)
    (hdis : ∀ (chunk : List Nat) (a : Nat) (c : Option Nat),
      ((dis chunk a c).map Insn.size).sum ≤ chunk.length)
    (hread : ∀ a n, (readF a n).length = n) :
    ∀ (fuel offset count : Nat),
      (∀ r ∈ (disasmKnownSize dis minInsn maxInsn readF address maxSize maxNum
          fuel offset count).2,
        address + offset ≤ r.1 ∧ r.1 + r.2 ≤ address + maxSize) ∧
      ((disasmKnownSize dis minInsn maxInsn readF address maxSize maxNum
          fuel offset count).1.map Insn.size).sum ≤ maxSize - offset := by
  intro fuel
  induction fuel with
  | zero =>
    intro offset count
    exact ⟨by simp [disasmKnownSize], by simp [disasmKnownSize]⟩
  | succ fuel ih =>
    intro offset count
    by_cases hg : disasmGuard maxNum minInsn maxSize offset count = true
    · have hofs := disasmGuard_offset hg
      have hrs := disasmReadSize_le maxNum maxInsn (maxSize - offset) count
      have htot : ((dis (readF (address + offset)
            (disasmReadSize maxNum maxInsn (maxSize - offset) count))
            (address + offset) (disasmCurrMax maxNum count)).map
              Insn.size).sum
          ≤ disasmReadSize maxNum maxInsn (maxSize - offset) count := by
        have h1 := hdis (readF (address + offset)
            (disasmReadSize maxNum maxInsn (maxSize - offset) count))
          (address + offset) (disasmCurrMax maxNum count)
        rwa [hread] at h1
      simp only [disasmKnownSize, hg, if_true]
      split
      · constructor
        · intro r hr
          simp only [List.mem_singleton] at hr
          subst hr
          constructor
          · exact Nat.le_refl _
          · show address + offset + disasmReadSize maxNum maxInsn (maxSize - offset)
                count ≤ address + maxSize
            omega
        · exact le_trans htot hrs
      · obtain ⟨ihr, ihs⟩ := ih
          (offset + ((dis (readF (address + offset)
            (disasmReadSize maxNum maxInsn (maxSize - offset) count))
            (address + offset) (disasmCurrMax maxNum count)).map
              Insn.size).sum)
          (count + (dis (readF (address + offset)
            (disasmReadSize maxNum maxInsn (maxSize - offset) count))
            (address + offset) (disasmCurrMax maxNum count)).length)
        constructor
        · intro r hr
          simp only [List.mem_cons] at hr
          rcases hr with rfl | hr
          · constructor
            · exact Nat.le_refl _
            · show address + offset + disasmReadSize maxNum maxInsn (maxSize - offset)
                  count ≤ address + maxSize
              omega
          · have h2 := ihr r hr
            constructor
            · omega
            · exact h2.2
        · simp only [List.map_append, List.sum_append]
          omega
    · simp only [disasmKnownSize, hg, if_false]
      exact ⟨by simp, by simp⟩

/-- C6: for every segmented memory and address inside a segment,
`disassemble` enters the known-maximum-size regime with
`_get_max_read_size = segment.end - address` (memory.py lines 156-161,
423-428), every read it issues stays within `[address, segment.end)`, and
the sum of the emitted instruction sizes never exceeds the available
window `segment.end - address`.  The disassembler backend is assumed only
to decode instructions out of the bytes it is given (their sizes sum to at
most the chunk length), and reads to return exactly the requested number
of bytes. -/
theorem disassemble_stays_in_segment (dis : List Nat → Nat → Option Nat → List Insn)
    (minInsn maxInsn : Nat) (readF : Nat → Nat → List Nat)
    (segs : List BufSeg) (address : Nat) (maxNum : Option Nat) (fuel : Nat)
    (i : Nat) (s : BufSeg)
    (hdis : ∀ (chunk : List Nat) (a : Nat) (c : Option Nat),
      ((dis chunk a c).map Insn.size).sum ≤ chunk.length)
    (hread : ∀ a n, (readF a n).length = n)
    (hidx : segIdxByAddress segs address = some i) (hget : segs[i]? = some s) :
    getMaxReadSize segs address = some (s.end_ - address) ∧
    (∀ r ∈ (disasmKnownSize dis minInsn maxInsn readF address (s.end_ - address)
        maxNum fuel 0 0).2, address ≤ r.1 ∧ r.1 + r.2 ≤ s.end_) ∧
    ((disasmKnownSize dis minInsn maxInsn readF address (s.end_ - address)
        maxNum fuel 0 0).1.map Insn.size).sum ≤ s.end_ - address := by
  obtain ⟨s2, hget2, hcont2⟩ := segIdxByAddress_some hidx
  rw [hget] at hget2
  have hs2 : s = s2 := Option.some.inj hget2
  rw [← hs2] at hcont2
  simp only [BufSeg.containsAddress, BufSeg.end_, decide_eq_true_eq] at hcont2
  have hb := disasmKnownSize_bounds dis minInsn maxInsn readF address
    (s.end_ - address) maxNum hdis hread fuel 0 0
  refine ⟨?_, ?_, by simpa using hb.2⟩
  · rw [getMaxReadSize, hidx]
    simp [hget]
  · intro r hr
    have h2 := hb.1 r hr
    simp only [BufSeg.end_] at h2 ⊢
    omega

/-- C6 witness: disassembling from the start of the 16-byte demo segment
with a 4-byte-instruction decoder — the window is reported as 16 bytes and
the emitted sizes stay within it. -/
theorem disassemble_stays_in_segment_witness :
    getMaxReadSize demoSegs 0x1000 = some 0x10 ∧
    ((disasmKnownSize demoDis 4 4 demoReadF 0x1000 0x10 none 64 0 0).1.map
      Insn.size).sum ≤ 0x10 := by
  have h := disassemble_stays_in_segment demoDis 4 4 demoReadF demoSegs 0x1000
    none 64 0 ⟨"a", 0x1000, 0x10, AccessType.RWX, List.replicate 0x10 0⟩
    (by
      intro chunk a c
      simp only [demoDis]
      split
      next hl => simpa using hl
      next hl => simp)
    (by
      intro a n
      simp [demoReadF])
    (by decide) (by decide)
  exact ⟨h.1, h.2.2⟩

/-! ## Claim C10 -/

theorem encodeIntLE_length : ∀ (size v : Nat), (encodeIntLE size v).length = size
  | 0, _ => rfl
  | size + 1, v => by
    simp only [encodeIntLE, List.length_cons, encodeIntLE_length size]

theorem decodeIntLE_encodeIntLE :
    ∀ (size v : Nat), v < 256 ^ size → decodeIntLE (encodeIntLE size v) = v := by
  intro size
  induction size with
  | zero =>
    intro v hv
    simp only [Nat.pow_zero, Nat.lt_one_iff] at hv
    subst hv
    rfl
  | succ size ih =>
    intro v hv
    have hdiv : v / 256 < 256 ^ size := by
      rw [Nat.div_lt_iff_lt_mul (by omega)]
      calc v < 256 ^ (size + 1) := hv
      _ = 256 ^ size * 256 := by rw [Nat.pow_succ]
    simp only [encodeIntLE, decodeIntLE, ih (v / 256) hdiv]
    omega

theorem encodeInt_length (e : Endian) (v size : Nat) :
    (e.encodeInt v size).length = size := by
  cases e <;> simp [Endian.encodeInt, encodeIntLE_length]

theorem decodeInt_encodeInt (e : Endian) (v size : Nat) (h : v < 256 ^ size) :
    e.decodeInt (e.encodeInt v size) = v := by
  cases e with
  | little => exact decodeIntLE_encodeIntLE size v h
  | big =>
    simp only [Endian.encodeInt, Endian.decodeInt, List.reverse_reverse]
    exact decodeIntLE_encodeIntLE size v h

/-- C10: `stack.push(v)` followed by `stack.pop()` returns the word the
push stored at the new stack top and restores the stack pointer; push
decreases `sp` by exactly `word_size` and pop increases it by exactly
`word_size`. -/
theorem stack_push_pop_roundtrip (endian : Endian) (ws : Nat) (st : StackState)
    (v : Nat)
    (hlen : ∀ s ∈ st.mem, s.data.length = s.size)
    (hsp : ws ≤ st.sp)
    (hcov : ∀ k, k < ws → (segIdxByAddress st.mem (st.sp - ws + k)).isSome = true)
    (hv : v < 256 ^ ws) :
    ∃ st1, stackPush endian ws st v = some st1 ∧ st1.sp + ws = st.sp ∧
      ∃ r st2, stackPop endian ws st1 = some (r, st2) ∧
        r = v ∧ st2.sp = st1.sp + ws ∧ st2.sp = st.sp := by
  have hlenenc : (endian.encodeInt v ws).length = ws := encodeInt_length ..
  obtain ⟨M, hw, hrd⟩ := writeData_readData_roundtrip st.mem (st.sp - ws)
    (endian.encodeInt v ws) hlen (by rw [hlenenc]; exact hcov)
  refine ⟨⟨M, st.sp - ws⟩, ?_, by simp; omega, ?_⟩
  · simp only [stackPush, hw, Option.map_some']
  · rw [hlenenc] at hrd
    refine ⟨v, ⟨M, st.sp - ws + ws⟩, ?_, rfl, rfl, by simp; omega⟩
    simp only [stackPop, hrd, Option.map_some']
    rw [decodeInt_encodeInt endian v ws hv]

/-- C10 witness: pushing `0x12345678` with a 4-byte word size on the demo
memory and popping it returns the value and restores the stack pointer. -/
theorem stack_push_pop_roundtrip_witness :
    ∃ st1, stackPush Endian.little 4 ⟨demoSegs, 0x1010⟩ 0x12345678 = some st1 ∧
      st1.sp + 4 = 0x1010 ∧
      ∃ r st2, stackPop Endian.little 4 st1 = some (r, st2) ∧
        r = 0x12345678 ∧ st2.sp = st1.sp + 4 ∧ st2.sp = 0x1010 :=
  stack_push_pop_roundtrip Endian.little 4 ⟨demoSegs, 0x1010⟩ 0x12345678
    (by decide) (by decide) (by decide) (by decide)

end Megastone
